import Mathlib

/-!  Verification of the external-memory word counter (cmd/main.go).

Shallow embedding conventions:
* a run file is its list of text lines (`Run`), the trailing newline being
  the line separator that bufio.Scanner strips;
* a Go `map[string]int` is an association list with unique keys (`Table`);
* Go `int` is modelled as unbounded `Int` (strconv's range clamping is not
  touched by any claim considered here);
* Go's byte-lexicographic string order is modelled by Lean's `String` order
  (UTF-8 byte order and code-point order agree);
* fallible code is modelled with `Option`: `mergeInBatches` returns `none`
  exactly where the Go code would panic on `files[0]`.
-/

namespace WordCounter

/-- Whitespace recognised by strings.TrimSpace (the Latin-1 part of
unicode.IsSpace; the exotic Unicode space classes play no role in the
claims). -/
def isGoSpace (c : Char) : Bool :=
  c = ' ' || c = '\t' || c = '\n' || c = '\u000B' || c = '\u000C' || c = '\r' ||
  c = '\u0085' || c = '\u00A0'

/-- strings.TrimSpace: drop whitespace from both ends of the line. -/
def trimSpace (s : String) : String :=
  String.mk (((s.data.dropWhile isGoSpace).reverse.dropWhile isGoSpace).reverse)

def digitChar (n : Nat) : Char := Char.ofNat (48 + n)

/-- Decimal digits of n, most significant first (fmt %d on a Nat); written
with fuel so it evaluates by kernel reduction.  Any fuel > n suffices. -/
def natDigits : Nat → Nat → List Char
  | 0, _ => []
  | fuel + 1, n => if n < 10 then [digitChar n] else natDigits fuel (n / 10) ++ [digitChar (n % 10)]

def natToString (n : Nat) : String := String.mk (natDigits (n + 1) n)

/-- fmt %d on a Go int. -/
def intToString (i : Int) : String :=
  if i < 0 then "-" ++ natToString i.natAbs else natToString i.toNat

def digitVal (c : Char) : Nat := c.toNat - 48

def digitsToNat (cs : List Char) : Nat := cs.foldl (fun a c => a * 10 + digitVal c) 0

/-- strconv.Atoi's digit part: a nonempty all-digit string. -/
def atoiCore (cs : List Char) : Option Int :=
  if cs ≠ [] ∧ cs.all Char.isDigit then some (Int.ofNat (digitsToNat cs)) else none

/-- strconv.Atoi's syntax: an optional sign, then a nonempty digit string. -/
def atoiOpt (s : String) : Option Int :=
  match s.data with
  | [] => none
  | c :: cs =>
    if c = '+' then atoiCore cs
    else if c = '-' then (atoiCore cs).map Int.neg
    else atoiCore (c :: cs)

/-- strconv.Atoi with the error discarded, as parseLine does: 0 on failure. -/
def atoi (s : String) : Int := (atoiOpt s).getD 0

/-- strings.SplitN(line, tab, 2): the part before the first tab, and the
rest; `none` when the line has no tab (SplitN then yields one field). -/
def splitAtTab : List Char → Option (List Char × List Char)
  | [] => none
  | c :: cs =>
    if c = '\t' then some ([], cs)
    else
      match splitAtTab cs with
      | none => none
      | some p => some (c :: p.1, p.2)

/-- parseLine from main.go: a missing tab yields ("", 0); a bad count field
yields count 0 because Atoi's error is discarded. -/
def parseLine (line : String) : String × Int :=
  match splitAtTab line.data with
  | none => ("", 0)
  | some p => (String.mk p.1, atoi (String.mk p.2))

/-- One record as written by fmt.Fprintf("%s\t%d\n", w, c) (the line body). -/
def formatLine (w : String) (c : Int) : String := w ++ "\t" ++ intToString c

def noTab (s : String) : Bool := s.data.all (fun c => c ≠ '\t')

/-- Go's byte-lexicographic string order, modelled as the lexicographic
order on the character lists (UTF-8 byte order and code-point order
agree).  Using the list order keeps every comparison kernel-computable. -/
def sLE (a b : String) : Prop := a.data ≤ b.data

/-- Strict version of [sLE]. -/
def sLT (a b : String) : Prop := a.data < b.data

instance : DecidableRel sLE := fun a b => inferInstanceAs (Decidable (a.data ≤ b.data))

instance : DecidableRel sLT := fun a b => inferInstanceAs (Decidable (a.data < b.data))

instance : IsTotal String sLE := ⟨fun a b => le_total a.data b.data⟩

instance : IsTrans String sLE := ⟨fun _ _ _ => le_trans⟩

instance : IsAntisymm String sLE :=
  ⟨fun a b h1 h2 => by
    rcases a with ⟨da⟩
    rcases b with ⟨db⟩
    have hd : da = db := le_antisymm h1 h2
    rw [hd]⟩

/-- A run file, as its list of lines. -/
abbrev Run := List String

/-- A Go map[string]int as an association list with unique keys. -/
abbrev Table := List (String × Int)

def keysOf (t : Table) : List String := t.map Prod.fst

/-- wordCount[w] += c on a Go map. -/
def incr : Table → String → Int → Table
  | [], w, c => [(w, c)]
  | (k, v) :: t, w, c => if k = w then (k, v + c) :: t else (k, v) :: incr t w c

/-- Go map lookup (0 for a missing key). -/
def lookv : Table → String → Int
  | [], _ => 0
  | (k, v) :: t, w => if k = w then v else lookv t w

def NodupKeys (t : Table) : Prop := (keysOf t).Nodup

instance (t : Table) : Decidable (NodupKeys t) :=
  inferInstanceAs (Decidable (keysOf t).Nodup)

def sortStrings (l : List String) : List String := List.insertionSort sLE l

/-- Shared body of flushToTempFile and flushBufferToWriter (both write the
same format): sort the keys ascending and write one token<TAB>count line per
key.  sort.Strings is modelled by insertion sort; on the unique keys of a
map every correct sort returns the same list. -/
def flushRun (t : Table) : Run :=
  (sortStrings (keysOf t)).map (fun w => formatLine w (lookv t w))

/-- One iteration of processInputFile's scanner loop. -/
def buildStep (B : Nat) (st : Table × List Run) (line : String) : Table × List Run :=
  let w := trimSpace line
  if w = "" then st
  else
    let t := incr st.1 w 1
    if B ≤ t.length then ([], st.2 ++ [flushRun t]) else (t, st.2)

/-- processInputFile: run the scanner loop, then the final flush. -/
def processInputFile (B : Nat) (lines : List String) : List Run :=
  let st := lines.foldl (buildStep B) ([], [])
  if st.1.isEmpty then st.2 else st.2 ++ [flushRun st.1]

/-- A transient heap element: word, count, source file index. -/
abbrev Entry := String × Int × Nat

def eword (e : Entry) : String := e.1
def eidx (e : Entry) : Nat := e.2.2
def entryRec (e : Entry) : String × Int := (e.1, e.2.1)

/-- heap.Pop on the fileEntryHeap: remove an entry carrying the minimal
word.  container/heap leaves the relative order of equal words unspecified;
taking the leftmost minimal entry is one admissible resolution, and no
theorem below depends on that choice. -/
def popMin : List Entry → Option (Entry × List Entry)
  | [] => none
  | e :: es =>
    match popMin es with
    | none => some (e, es)
    | some (m, r) => if sLE (eword e) (eword m) then some (e, es) else some (m, e :: r)

def runAt (R : List Run) (i : Nat) : Run := R.getD i []

def sumLen (R : List Run) : Nat := (R.map List.length).sum

/-- The heap loop of mergeBatch.  State: heap contents, the unread remainder
of each input file, the bounded output buffer, and the lines written so far.
Fuel counts loop iterations (each iteration consumes exactly one record);
mergeBatch supplies enough fuel, so the 0 arm is never reached from it. -/
def mergeLoopF (B : Nat) : Nat → List Entry → List Run → Table → List String → List String
  | 0, _, _, _, out => out
  | fuel + 1, entries, rest, buffer, out =>
    match popMin entries with
    | none => if buffer.isEmpty then out else out ++ flushRun buffer
    | some (e, es) =>
      let w := eword e
      let p :=
        if ¬ w ∈ keysOf buffer ∧ B ≤ buffer.length
        then (([] : Table), out ++ flushRun buffer)
        else (buffer, out)
      let buffer2 := incr p.1 w e.2.1
      match runAt rest (eidx e) with
      | [] => mergeLoopF B fuel es rest buffer2 p.2
      | l :: ls =>
        mergeLoopF B fuel (es ++ [((parseLine l).1, (parseLine l).2, eidx e)])
          (rest.set (eidx e) ls) buffer2 p.2

/-- Seed the heap: one entry per nonempty input file, holding its first
parsed record and its file index. -/
def entriesInitGo : Nat → List Run → List Entry
  | _, [] => []
  | i, [] :: rs => entriesInitGo (i + 1) rs
  | i, (l :: _) :: rs => ((parseLine l).1, (parseLine l).2, i) :: entriesInitGo (i + 1) rs

def mergeBatch (B : Nat) (runs : List Run) : Run :=
  mergeLoopF B (sumLen runs + 1) (entriesInitGo 0 runs) (runs.map List.tail) [] []

/-- The batch slicing files[i : i+B] of mergeInBatches.  The fuel-0 fallback
and the B = 0 arm are unreachable from the program (main rejects B ≤ 0,
and for B ≥ 1 fuel = length suffices). -/
def chunksGo (B : Nat) : Nat → List Run → List (List Run)
  | 0, l => if l.isEmpty then [] else [l]
  | fuel + 1, l =>
    if l.isEmpty then []
    else if B = 0 then [l]
    else l.take B :: chunksGo B fuel (l.drop B)

def chunksOf (B : Nat) (l : List Run) : List (List Run) := chunksGo B l.length l

/-- One round of mergeInBatches: merge every batch of at most B files. -/
def roundMerge (B : Nat) (files : List Run) : List Run :=
  (chunksOf B files).map (mergeBatch B)

/-- The outer while-loop of mergeInBatches.  For B ≥ 2 every round strictly
shrinks the list, so files.length rounds of fuel always suffice; for B = 1
and more than one file the Go loop never terminates, and exhausting the
fuel marks exactly that divergence. -/
def mergeRoundsF (B : Nat) : Nat → List Run → List Run
  | 0, files => files
  | fuel + 1, files =>
    if files.length ≤ 1 then files else mergeRoundsF B fuel (roundMerge B files)

/-- mergeInBatches; `none` models the index-out-of-range panic of the final
`files[0]` on an empty list. -/
def mergeInBatches (B : Nat) (files : List Run) : Option Run :=
  (mergeRoundsF B files.length files).head?

/-- The non-blank tokens of the input, in order: each line trimmed, blank
lines skipped. -/
def tokensOfInput (lines : List String) : List String :=
  (lines.map trimSpace).filter (fun w => w ≠ "")

/-- The whole program: build runs, merge them; output.tsv is the survivor. -/
def pipeline (B : Nat) (lines : List String) : Option Run :=
  mergeInBatches B (processInputFile B lines)

/-- Spec side of the refinement claims (modelled from the spec's words,
for comparison only): the frequency table of the whole input computed in a
single unbounded in-memory pass and written out once. -/
def singlePassSpec (lines : List String) : Run :=
  flushRun ((tokensOfInput lines).foldl (fun t w => incr t w 1) [])

/-- The records of a run, as mergeBatch would read them back. -/
def recsOfRun (r : Run) : List (String × Int) := r.map parseLine

def tokensOfRun (r : Run) : List String := (recsOfRun r).map Prod.fst

def allRecs (rs : List Run) : List (String × Int) := (rs.map recsOfRun).flatten

def fmtRecs (l : List (String × Int)) : Run := l.map (fun r => formatLine r.1 r.2)

/-- Total count a record multiset assigns to one token. -/
def sumc (l : List (String × Int)) (w : String) : Int :=
  (l.map (fun r => if r.1 = w then r.2 else 0)).sum

def sortDedup (l : List String) : List String := List.insertionSort sLE l.dedup

/-- Canonical sorted aggregate of a record multiset: the distinct tokens in
ascending order, each with the total of its counts. -/
def sortedAgg (l : List (String × Int)) : List (String × Int) :=
  (sortDedup (l.map Prod.fst)).map (fun w => (w, sumc l w))

/-- Two record multisets with the same tokens and the same per-token
totals. -/
def AggEquiv (a b : List (String × Int)) : Prop :=
  (∀ w, w ∈ a.map Prod.fst ↔ w ∈ b.map Prod.fst) ∧ ∀ w, sumc a w = sumc b w

def StrictSorted (l : List String) : Prop := l.Pairwise sLT

instance (l : List String) : Decidable (StrictSorted l) :=
  List.instDecidablePairwise l

/-- A well-formed run: strictly ascending parsed tokens, and every line is
exactly the written form of its own record. -/
def WFRun (r : Run) : Prop :=
  StrictSorted (tokensOfRun r) ∧ fmtRecs (recsOfRun r) = r

/-- One (token, 1) record per input token occurrence: the reference multiset
for conservation statements. -/
def unitRecs (ws : List String) : List (String × Int) := ws.map (fun w => (w, (1 : Int)))

/-- Loop invariant of mergeBatch relating the heap to the unread remainders:
indices are distinct and in range, every unread token of a run is above that
run's heap entry and strictly sorted, and exhausted runs have no entry. -/
def MergeInv (E : List Entry) (R : List Run) : Prop :=
  (E.map eidx).Nodup ∧
  (∀ e ∈ E, eidx e < R.length ∧
    StrictSorted (tokensOfRun (runAt R (eidx e))) ∧
    ∀ w ∈ tokensOfRun (runAt R (eidx e)), sLT (eword e) w) ∧
  (∀ i, i < R.length → (∀ e ∈ E, eidx e ≠ i) → runAt R i = [])

/-- Buffer invariant of mergeBatch: unique keys, all of them at or below
every word still in the heap. -/
def BufInv (T : Table) (E : List Entry) : Prop :=
  NodupKeys T ∧ ∀ k ∈ keysOf T, ∀ e ∈ E, sLE k (eword e)

/-- processInputFile instrumented with the table's size right after every
insertion (the per-iteration peak); the spec itself asks for this
instrumentation.  Its run output is proved identical to processInputFile
below. -/
def buildStepI (B : Nat) (st : Table × List Run × List Nat) (line : String) :
    Table × List Run × List Nat :=
  let w := trimSpace line
  if w = "" then st
  else
    let t := incr st.1 w 1
    if B ≤ t.length then ([], st.2.1 ++ [flushRun t], st.2.2 ++ [t.length])
    else (t, st.2.1, st.2.2 ++ [t.length])

def processInputFileI (B : Nat) (lines : List String) : Table × List Run × List Nat :=
  lines.foldl (buildStepI B) ([], [], [])

/-- mergeBatch's loop instrumented with the buffer's size right after every
insertion; the line output is proved identical to mergeLoopF below. -/
def mergeLoopFI (B : Nat) :
    Nat → List Entry → List Run → Table → List String → List Nat → List String × List Nat
  | 0, _, _, _, out, peaks => (out, peaks)
  | fuel + 1, entries, rest, buffer, out, peaks =>
    match popMin entries with
    | none => (if buffer.isEmpty then out else out ++ flushRun buffer, peaks)
    | some (e, es) =>
      let w := eword e
      let p :=
        if ¬ w ∈ keysOf buffer ∧ B ≤ buffer.length
        then (([] : Table), out ++ flushRun buffer)
        else (buffer, out)
      let buffer2 := incr p.1 w e.2.1
      match runAt rest (eidx e) with
      | [] => mergeLoopFI B fuel es rest buffer2 p.2 (peaks ++ [buffer2.length])
      | l :: ls =>
        mergeLoopFI B fuel (es ++ [((parseLine l).1, (parseLine l).2, eidx e)])
          (rest.set (eidx e) ls) buffer2 p.2 (peaks ++ [buffer2.length])

def mergeBatchI (B : Nat) (runs : List Run) : List String × List Nat :=
  mergeLoopFI B (sumLen runs + 1) (entriesInitGo 0 runs) (runs.map List.tail) [] [] []

/-! ### The string order -/

theorem sLE_refl (a : String) : sLE a a := le_refl _

theorem sLE_trans {a b c : String} (h1 : sLE a b) (h2 : sLE b c) : sLE a c :=
  le_trans h1 h2

theorem sLE_of_not_sLE {a b : String} (h : ¬ sLE a b) : sLE b a :=
  le_of_not_le h

theorem data_inj {a b : String} (h : a.data = b.data) : a = b := by
  rcases a with ⟨da⟩
  rcases b with ⟨db⟩
  rw [show da = db from h]

theorem sLT_of_sLE_of_ne {a b : String} (h1 : sLE a b) (h2 : a ≠ b) : sLT a b :=
  lt_of_le_of_ne h1 (fun hd => h2 (data_inj hd))

theorem ne_of_sLT {a b : String} (h : sLT a b) : a ≠ b :=
  fun he => absurd h (by rw [he]; exact lt_irrefl _)

theorem sLE_of_sLT {a b : String} (h : sLT a b) : sLE a b := le_of_lt h

theorem sLT_irrefl (a : String) : ¬ sLT a a := lt_irrefl _

theorem sLT_trans {a b c : String} (h1 : sLT a b) (h2 : sLT b c) : sLT a c :=
  lt_trans h1 h2

theorem sLT_of_sLE_of_sLT {a b c : String} (h1 : sLE a b) (h2 : sLT b c) : sLT a c :=
  lt_of_le_of_lt h1 h2

theorem sLT_of_sLT_of_sLE {a b c : String} (h1 : sLT a b) (h2 : sLE b c) : sLT a c :=
  lt_of_lt_of_le h1 h2

/-! ### Basic lemmas: per-token sums -/

theorem sumc_nil (w : String) : sumc [] w = 0 := rfl

theorem sumc_cons (r : String × Int) (l : List (String × Int)) (w : String) :
    sumc (r :: l) w = (if r.1 = w then r.2 else 0) + sumc l w := by
  simp [sumc]

theorem sumc_append (a b : List (String × Int)) (w : String) :
    sumc (a ++ b) w = sumc a w + sumc b w := by
  simp [sumc]

theorem sumc_perm {a b : List (String × Int)} (h : a.Perm b) (w : String) :
    sumc a w = sumc b w :=
  List.Perm.sum_eq (h.map _)

theorem sumc_eq_zero {l : List (String × Int)} {w : String}
    (h : ∀ r ∈ l, r.1 ≠ w) : sumc l w = 0 := by
  induction l with
  | nil => rfl
  | cons r t ih =>
    rw [sumc_cons, if_neg (h r (by simp)), ih (fun s hs => h s (by simp [hs])), add_zero]

/-! ### Basic lemmas: tables -/

theorem keysOf_incr (t : Table) (w : String) (c : Int) :
    keysOf (incr t w c) = if w ∈ keysOf t then keysOf t else keysOf t ++ [w] := by
  induction t with
  | nil => simp [incr, keysOf]
  | cons r t ih =>
    rcases r with ⟨k, v⟩
    by_cases hk : k = w
    · subst hk; simp [incr, keysOf]
    · have ih2 : List.map Prod.fst (incr t w c) =
          if w ∈ List.map Prod.fst t then List.map Prod.fst t
          else List.map Prod.fst t ++ [w] := ih
      by_cases hw : w ∈ List.map Prod.fst t
      · simp [incr, if_neg hk, keysOf, ih2, hw, Ne.symm hk]
      · simp [incr, if_neg hk, keysOf, ih2, hw, Ne.symm hk]

theorem mem_keysOf_incr (t : Table) (w : String) (c : Int) :
    w ∈ keysOf (incr t w c) := by
  rw [keysOf_incr]
  by_cases h : w ∈ keysOf t <;> simp [h]

theorem length_incr (t : Table) (w : String) (c : Int) :
    (incr t w c).length = if w ∈ keysOf t then t.length else t.length + 1 := by
  have h1 : (incr t w c).length = (keysOf (incr t w c)).length := by
    simp [keysOf]
  have h2 : t.length = (keysOf t).length := by simp [keysOf]
  rw [h1, h2, keysOf_incr]
  by_cases h : w ∈ keysOf t <;> simp [h]

theorem nodupKeys_incr {t : Table} (h : NodupKeys t) (w : String) (c : Int) :
    NodupKeys (incr t w c) := by
  unfold NodupKeys at h ⊢
  rw [keysOf_incr]
  by_cases hw : w ∈ keysOf t
  · simpa [hw] using h
  · simp only [hw, if_false]
    rw [List.nodup_append]
    exact ⟨h, List.nodup_singleton w, by simpa using fun hmem => hw hmem⟩

theorem sumc_incr (t : Table) (w : String) (c : Int) (x : String) :
    sumc (incr t w c) x = sumc t x + (if w = x then c else 0) := by
  induction t with
  | nil => simp [incr, sumc_cons, sumc_nil]
  | cons r t ih =>
    rcases r with ⟨k, v⟩
    by_cases hk : k = w
    · subst hk
      by_cases hx : k = x
      · subst hx
        simp [incr, sumc_cons]
        ring
      · simp [incr, sumc_cons, hx]
    · simp only [incr, if_neg hk, sumc_cons, ih]
      ring

theorem lookv_eq_sumc {t : Table} (h : NodupKeys t) (w : String) :
    lookv t w = sumc t w := by
  induction t with
  | nil => rfl
  | cons r t ih =>
    rcases r with ⟨k, v⟩
    unfold NodupKeys keysOf at h
    simp only [List.map_cons, List.nodup_cons] at h
    by_cases hk : k = w
    · subst hk
      have : sumc t k = 0 := sumc_eq_zero (fun s hs he => h.1 (by
        rw [← he]; exact List.mem_map_of_mem Prod.fst hs))
      simp [lookv, sumc_cons, this]
    · simpa [lookv, hk, sumc_cons] using ih h.2

/-! ### Basic lemmas: sorting and canonical aggregates -/

theorem sortStrings_perm (l : List String) : List.Perm (sortStrings l) l :=
  List.perm_insertionSort _ l

theorem sortStrings_sorted (l : List String) : List.Sorted sLE (sortStrings l) :=
  List.sorted_insertionSort _ l

theorem strictSorted_of_sorted_nodup {l : List String}
    (hs : List.Sorted sLE l) (hn : l.Nodup) : StrictSorted l :=
  (List.Pairwise.and hs hn).imp (fun h => sLT_of_sLE_of_ne h.1 h.2)

theorem StrictSorted.nodup {l : List String} (h : StrictSorted l) : l.Nodup :=
  h.imp ne_of_sLT

theorem StrictSorted.sorted_le {l : List String} (h : StrictSorted l) :
    List.Sorted sLE l :=
  h.imp sLE_of_sLT

theorem sortStrings_strict {l : List String} (h : l.Nodup) :
    StrictSorted (sortStrings l) :=
  strictSorted_of_sorted_nodup (sortStrings_sorted l) ((sortStrings_perm l).nodup_iff.mpr h)

theorem mem_sortDedup (l : List String) (w : String) : w ∈ sortDedup l ↔ w ∈ l := by
  unfold sortDedup
  rw [(List.perm_insertionSort _ _).mem_iff, List.mem_dedup]

theorem sortDedup_strict (l : List String) : StrictSorted (sortDedup l) :=
  strictSorted_of_sorted_nodup (List.sorted_insertionSort _ _)
    ((List.perm_insertionSort _ _).nodup_iff.mpr (List.nodup_dedup l))

theorem sortDedup_eq_self {l : List String} (h : StrictSorted l) : sortDedup l = l := by
  unfold sortDedup
  rw [List.Nodup.dedup h.nodup]
  exact List.Sorted.insertionSort_eq h.sorted_le

theorem strictSorted_eq_of_mem {a b : List String} (ha : StrictSorted a)
    (hb : StrictSorted b) (h : ∀ w, w ∈ a ↔ w ∈ b) : a = b :=
  List.eq_of_perm_of_sorted
    ((List.perm_ext_iff_of_nodup ha.nodup hb.nodup).mpr h) ha.sorted_le hb.sorted_le

theorem sortDedup_congr {a b : List String} (h : ∀ w, w ∈ a ↔ w ∈ b) :
    sortDedup a = sortDedup b :=
  strictSorted_eq_of_mem (sortDedup_strict a) (sortDedup_strict b)
    (fun w => by rw [mem_sortDedup, mem_sortDedup]; exact h w)

theorem sortDedup_eq_sortStrings {l : List String} (h : l.Nodup) :
    sortDedup l = sortStrings l := by
  unfold sortDedup sortStrings
  rw [List.Nodup.dedup h]

/-! ### AggEquiv and sortedAgg -/

theorem aggEquiv_refl (l : List (String × Int)) : AggEquiv l l :=
  ⟨fun _ => Iff.rfl, fun _ => rfl⟩

theorem aggEquiv_symm {a b : List (String × Int)} (h : AggEquiv a b) : AggEquiv b a :=
  ⟨fun w => (h.1 w).symm, fun w => (h.2 w).symm⟩

theorem aggEquiv_trans {a b c : List (String × Int)} (h1 : AggEquiv a b)
    (h2 : AggEquiv b c) : AggEquiv a c :=
  ⟨fun w => (h1.1 w).trans (h2.1 w), fun w => (h1.2 w).trans (h2.2 w)⟩

theorem aggEquiv_of_perm {a b : List (String × Int)} (h : a.Perm b) : AggEquiv a b :=
  ⟨fun _ => (h.map Prod.fst).mem_iff, fun w => sumc_perm h w⟩

theorem aggEquiv_append {a b a2 b2 : List (String × Int)} (h1 : AggEquiv a a2)
    (h2 : AggEquiv b b2) : AggEquiv (a ++ b) (a2 ++ b2) := by
  constructor
  · intro w
    simp only [List.map_append, List.mem_append]
    exact or_congr (h1.1 w) (h2.1 w)
  · intro w
    rw [sumc_append, sumc_append, h1.2 w, h2.2 w]

theorem sumc_keyed {ks : List String} (hn : ks.Nodup) (f : String → Int) (w : String) :
    sumc (ks.map (fun k => (k, f k))) w = if w ∈ ks then f w else 0 := by
  induction ks with
  | nil => simp [sumc_nil]
  | cons k t ih =>
    simp only [List.nodup_cons] at hn
    rw [List.map_cons, sumc_cons, ih hn.2]
    by_cases hk : k = w
    · subst hk
      simp [hn.1]
    · simp [hk, Ne.symm hk]

theorem tokens_sortedAgg (l : List (String × Int)) :
    (sortedAgg l).map Prod.fst = sortDedup (l.map Prod.fst) := by
  unfold sortedAgg
  rw [List.map_map]
  have hc : (Prod.fst ∘ fun w => (w, sumc l w)) = id := rfl
  rw [hc, List.map_id]

theorem sumc_sortedAgg (l : List (String × Int)) (w : String) :
    sumc (sortedAgg l) w = sumc l w := by
  unfold sortedAgg
  rw [sumc_keyed (sortDedup_strict _).nodup]
  by_cases h : w ∈ sortDedup (l.map Prod.fst)
  · rw [if_pos h]
  · rw [if_neg h]
    have hm : w ∉ l.map Prod.fst := fun hm => h ((mem_sortDedup _ _).mpr hm)
    refine (sumc_eq_zero (fun r hr he => hm ?_)).symm
    rw [← he]
    exact List.mem_map_of_mem Prod.fst hr

theorem aggEquiv_sortedAgg (l : List (String × Int)) : AggEquiv (sortedAgg l) l := by
  constructor
  · intro w
    rw [tokens_sortedAgg, mem_sortDedup]
  · exact sumc_sortedAgg l

theorem sortedAgg_congr {a b : List (String × Int)} (h : AggEquiv a b) :
    sortedAgg a = sortedAgg b := by
  unfold sortedAgg
  rw [sortDedup_congr h.1]
  exact List.map_congr_left (fun w _ => by rw [h.2 w])

theorem sortedAgg_append {x y : List (String × Int)}
    (h : ∀ a ∈ x.map Prod.fst, ∀ b ∈ y.map Prod.fst, sLT a b) :
    sortedAgg (x ++ y) = sortedAgg x ++ sortedAgg y := by
  have hkeys : sortDedup ((x ++ y).map Prod.fst) =
      sortDedup (x.map Prod.fst) ++ sortDedup (y.map Prod.fst) := by
    apply strictSorted_eq_of_mem (sortDedup_strict _)
    · unfold StrictSorted
      rw [List.pairwise_append]
      refine ⟨sortDedup_strict _, sortDedup_strict _, ?_⟩
      intro a ha b hb
      exact h a ((mem_sortDedup _ _).mp ha) b ((mem_sortDedup _ _).mp hb)
    · intro w
      rw [mem_sortDedup]
      simp only [List.map_append, List.mem_append, List.mem_append, mem_sortDedup]
  unfold sortedAgg
  rw [hkeys, List.map_append]
  congr 1
  · apply List.map_congr_left
    intro w hw
    have hwx : w ∈ x.map Prod.fst := (mem_sortDedup _ _).mp hw
    have hz : sumc y w = 0 :=
      sumc_eq_zero (fun r hr he =>
        absurd (h w hwx r.1 (List.mem_map_of_mem Prod.fst hr))
          (by rw [he]; exact sLT_irrefl w))
    rw [sumc_append, hz, add_zero]
  · apply List.map_congr_left
    intro w hw
    have hwy : w ∈ y.map Prod.fst := (mem_sortDedup _ _).mp hw
    have hz : sumc x w = 0 :=
      sumc_eq_zero (fun r hr he =>
        absurd (h r.1 (List.mem_map_of_mem Prod.fst hr) w hwy)
          (by rw [he]; exact sLT_irrefl w))
    rw [sumc_append, hz, zero_add]

theorem map_sumc_eq_self {l : List (String × Int)} (h : StrictSorted (l.map Prod.fst)) :
    (l.map Prod.fst).map (fun w => (w, sumc l w)) = l := by
  induction l with
  | nil => rfl
  | cons r t ih =>
    rcases r with ⟨k, v⟩
    simp only [List.map_cons] at h
    have hpc := List.pairwise_cons.mp h
    have hk : ∀ s ∈ t, s.1 ≠ k := by
      intro s hs he
      exact absurd (hpc.1 s.1 (List.mem_map_of_mem Prod.fst hs))
        (by rw [he]; exact sLT_irrefl k)
    rw [List.map_cons, List.map_cons]
    congr 1
    · rw [sumc_cons, sumc_eq_zero hk]
      simp
    · have heq : ∀ w ∈ t.map Prod.fst, (w, sumc ((k, v) :: t) w) = (w, sumc t w) := by
        intro w hw
        rcases List.mem_map.mp hw with ⟨s, hs, he⟩
        rw [sumc_cons, if_neg (by simp only []; rw [← he]; exact fun hc => hk s hs hc.symm),
          zero_add]
      rw [List.map_congr_left heq]
      exact ih hpc.2

theorem sortedAgg_eq_self {l : List (String × Int)} (h : StrictSorted (l.map Prod.fst)) :
    sortedAgg l = l := by
  unfold sortedAgg
  rw [sortDedup_eq_self h]
  exact map_sumc_eq_self h

/-! ### flushRun writes the canonical aggregate of its table -/

theorem flushRun_eq_fmt {t : Table} (h : NodupKeys t) :
    flushRun t = fmtRecs (sortedAgg t) := by
  show (sortStrings (keysOf t)).map (fun w => formatLine w (lookv t w)) =
    ((sortDedup (keysOf t)).map (fun w => (w, sumc t w))).map (fun r => formatLine r.1 r.2)
  rw [sortDedup_eq_sortStrings h, List.map_map]
  apply List.map_congr_left
  intro w _
  simp only [Function.comp]
  rw [lookv_eq_sumc h w]

/-! ### Decimal printing and parsing round-trip -/

theorem natDigits_ne_nil {fuel n : Nat} (h : n < fuel) : natDigits fuel n ≠ [] := by
  cases fuel with
  | zero => omega
  | succ f =>
    unfold natDigits
    by_cases h10 : n < 10
    · simp [h10]
    · simp [h10]

theorem digitChar_isDigit {n : Nat} (h : n < 10) : (digitChar n).isDigit = true := by
  interval_cases n <;> decide

theorem digitVal_digitChar {n : Nat} (h : n < 10) : digitVal (digitChar n) = n := by
  interval_cases n <;> decide

theorem natDigits_all_digits {fuel n : Nat} (h : n < fuel) :
    ∀ c ∈ natDigits fuel n, c.isDigit = true := by
  induction fuel generalizing n with
  | zero => omega
  | succ f ih =>
    unfold natDigits
    by_cases h10 : n < 10
    · simp only [if_pos h10, List.mem_singleton]
      rintro c rfl
      exact digitChar_isDigit h10
    · simp only [if_neg h10, List.mem_append, List.mem_singleton]
      rintro c (hc | rfl)
      · exact ih (by omega) c hc
      · exact digitChar_isDigit (Nat.mod_lt _ (by omega))

theorem digitsToNat_append_one (ds : List Char) (c : Char) :
    digitsToNat (ds ++ [c]) = digitsToNat ds * 10 + digitVal c := by
  unfold digitsToNat
  rw [List.foldl_append]
  rfl

theorem digitsToNat_natDigits {fuel n : Nat} (h : n < fuel) :
    digitsToNat (natDigits fuel n) = n := by
  induction fuel generalizing n with
  | zero => omega
  | succ f ih =>
    unfold natDigits
    by_cases h10 : n < 10
    · rw [if_pos h10]
      simp [digitsToNat, List.foldl, digitVal_digitChar h10]
    · rw [if_neg h10, digitsToNat_append_one, ih (by omega),
        digitVal_digitChar (Nat.mod_lt _ (by omega))]
      omega

theorem isDigit_ne_plus {c : Char} (h : c.isDigit = true) : c ≠ '+' := by
  rintro rfl
  exact absurd h (by decide)

theorem isDigit_ne_minus {c : Char} (h : c.isDigit = true) : c ≠ '-' := by
  rintro rfl
  exact absurd h (by decide)

theorem atoiOpt_mk_digits {l : List Char} (hne : l ≠ [])
    (hdig : ∀ c ∈ l, c.isDigit = true) :
    atoiOpt (String.mk l) = some (Int.ofNat (digitsToNat l)) := by
  cases l with
  | nil => exact absurd rfl hne
  | cons c cs =>
    have hc := hdig c (by simp)
    show (if c = '+' then atoiCore cs
      else if c = '-' then (atoiCore cs).map Int.neg else atoiCore (c :: cs)) = _
    rw [if_neg (isDigit_ne_plus hc), if_neg (isDigit_ne_minus hc)]
    unfold atoiCore
    rw [if_pos ⟨by simp, by simpa [List.all_eq_true] using hdig⟩]

theorem atoiOpt_intToString (c : Int) : atoiOpt (intToString c) = some c := by
  unfold intToString
  by_cases hneg : c < 0
  · rw [if_pos hneg]
    unfold natToString
    have hdata : ("-" ++ String.mk (natDigits (c.natAbs + 1) c.natAbs)) =
        String.mk ('-' :: natDigits (c.natAbs + 1) c.natAbs) := rfl
    rw [hdata]
    have hstep : atoiOpt (String.mk ('-' :: natDigits (c.natAbs + 1) c.natAbs)) =
        (atoiCore (natDigits (c.natAbs + 1) c.natAbs)).map Int.neg := by
      show (if '-' = '+' then atoiCore (natDigits (c.natAbs + 1) c.natAbs)
        else if '-' = '-' then (atoiCore (natDigits (c.natAbs + 1) c.natAbs)).map Int.neg
        else atoiCore ('-' :: natDigits (c.natAbs + 1) c.natAbs)) =
        (atoiCore (natDigits (c.natAbs + 1) c.natAbs)).map Int.neg
      rw [if_neg (by decide), if_pos rfl]
    rw [hstep]
    have h1 : atoiCore (natDigits (c.natAbs + 1) c.natAbs) =
        some (Int.ofNat c.natAbs) := by
      unfold atoiCore
      rw [if_pos ⟨natDigits_ne_nil (by omega),
        by simpa [List.all_eq_true] using natDigits_all_digits (by omega)⟩,
        digitsToNat_natDigits (by omega)]
    rw [h1]
    show some (Int.neg (Int.ofNat c.natAbs)) = some c
    congr 1
    show -(Int.ofNat c.natAbs) = c
    simp only [Int.ofNat_eq_coe]
    omega
  · rw [if_neg hneg]
    unfold natToString
    rw [atoiOpt_mk_digits (natDigits_ne_nil (by omega)) (natDigits_all_digits (by omega)),
      digitsToNat_natDigits (by omega)]
    congr 1
    exact Int.toNat_of_nonneg (not_lt.mp hneg)

/-! ### splitAtTab and the parseLine round-trip -/

theorem splitAtTab_append {a : List Char} (b : List Char) (h : ∀ c ∈ a, c ≠ '\t') :
    splitAtTab (a ++ '\t' :: b) = some (a, b) := by
  induction a with
  | nil => simp [splitAtTab]
  | cons c cs ih =>
    rw [List.cons_append]
    unfold splitAtTab
    rw [if_neg (h c (by simp)), ih (fun x hx => h x (by simp [hx]))]

theorem splitAtTab_some {l : List Char} {p : List Char × List Char}
    (h : splitAtTab l = some p) : l = p.1 ++ '\t' :: p.2 ∧ ∀ c ∈ p.1, c ≠ '\t' := by
  induction l generalizing p with
  | nil => simp [splitAtTab] at h
  | cons c cs ih =>
    unfold splitAtTab at h
    by_cases hc : c = '\t'
    · rw [if_pos hc] at h
      cases h
      subst hc
      exact ⟨rfl, by simp⟩
    · rw [if_neg hc] at h
      cases hs : splitAtTab cs with
      | none => rw [hs] at h; cases h
      | some q =>
        rw [hs] at h
        cases h
        obtain ⟨h1, h2⟩ := ih hs
        refine ⟨by rw [List.cons_append, ← h1], ?_⟩
        intro x hx
        rcases List.mem_cons.mp hx with rfl | hx2
        · exact hc
        · exact h2 x hx2

theorem noTab_iff {s : String} : noTab s = true ↔ ∀ c ∈ s.data, c ≠ '\t' := by
  simp [noTab, List.all_eq_true]

theorem parseLine_formatLine {w : String} (c : Int) (h : noTab w = true) :
    parseLine (formatLine w c) = (w, c) := by
  have hdata : (formatLine w c).data = w.data ++ '\t' :: (intToString c).data := by
    show ((w ++ "\t") ++ intToString c).data = _
    rw [String.data_append, String.data_append]
    have ht : ("\t" : String).data = ['\t'] := rfl
    rw [ht, List.append_assoc]
    rfl
  unfold parseLine
  rw [hdata, splitAtTab_append _ (noTab_iff.mp h)]
  show (w, atoi (intToString c)) = (w, c)
  unfold atoi
  rw [atoiOpt_intToString]
  rfl

theorem parseLine_fst_noTab (line : String) : noTab (parseLine line).1 = true := by
  unfold parseLine
  cases h : splitAtTab line.data with
  | none => rfl
  | some p =>
    obtain ⟨_, h2⟩ := splitAtTab_some h
    exact noTab_iff.mpr h2

theorem splitAtTab_none {l : List Char} (h : ∀ c ∈ l, c ≠ '\t') :
    splitAtTab l = none := by
  induction l with
  | nil => rfl
  | cons c cs ih =>
    unfold splitAtTab
    rw [if_neg (h c (by simp)), ih (fun x hx => h x (by simp [hx]))]

theorem parseLine_no_tab_line {line : String} (h : noTab line = true) :
    parseLine line = ("", 0) := by
  unfold parseLine
  rw [splitAtTab_none (noTab_iff.mp h)]

/-! ### Records of runs -/

theorem recsOfRun_fmtRecs {l : List (String × Int)}
    (h : ∀ r ∈ l, noTab r.1 = true) : recsOfRun (fmtRecs l) = l := by
  unfold recsOfRun fmtRecs
  rw [List.map_map]
  have hpt : ∀ r ∈ l, (parseLine ∘ fun r => formatLine r.1 r.2) r = id r := by
    intro r hr
    simp only [Function.comp, id]
    rw [parseLine_formatLine r.2 (h r hr)]
  rw [List.map_congr_left hpt, List.map_id]

theorem tokensOfRun_noTab (r : Run) : ∀ w ∈ tokensOfRun r, noTab w = true := by
  unfold tokensOfRun recsOfRun
  intro w hw
  rw [List.map_map] at hw
  rcases List.mem_map.mp hw with ⟨l, _, he⟩
  rw [← he]
  exact parseLine_fst_noTab l

theorem allRecs_nil : allRecs [] = [] := rfl

theorem allRecs_cons (r : Run) (rs : List Run) :
    allRecs (r :: rs) = recsOfRun r ++ allRecs rs := rfl

theorem allRecs_noTab (rs : List Run) : ∀ rec ∈ allRecs rs, noTab rec.1 = true := by
  intro rec hrec
  rcases List.mem_flatten.mp hrec with ⟨lr, hlr, hin⟩
  rcases List.mem_map.mp hlr with ⟨r, _, rfl⟩
  have : rec.1 ∈ tokensOfRun r := List.mem_map_of_mem Prod.fst hin
  exact tokensOfRun_noTab r rec.1 this

theorem sortedAgg_noTab {l : List (String × Int)}
    (h : ∀ rec ∈ l, noTab rec.1 = true) :
    ∀ rec ∈ sortedAgg l, noTab rec.1 = true := by
  intro rec hrec
  have hm : rec.1 ∈ (sortedAgg l).map Prod.fst := List.mem_map_of_mem Prod.fst hrec
  rw [tokens_sortedAgg, mem_sortDedup] at hm
  rcases List.mem_map.mp hm with ⟨r, hr, he⟩
  rw [← he]
  exact h r hr

theorem allRecs_eq_nil {R : List Run} (h : ∀ r ∈ R, r = []) : allRecs R = [] := by
  induction R with
  | nil => rfl
  | cons r rs ih =>
    rw [allRecs_cons, h r (by simp), ih (fun x hx => h x (by simp [hx]))]
    rfl

theorem wfRun_canonical {r : Run} (h : WFRun r) :
    sortedAgg (recsOfRun r) = recsOfRun r :=
  sortedAgg_eq_self h.1

theorem wfRun_fmt_sortedAgg {l : List (String × Int)}
    (h : ∀ rec ∈ l, noTab rec.1 = true) :
    WFRun (fmtRecs (sortedAgg l)) ∧ recsOfRun (fmtRecs (sortedAgg l)) = sortedAgg l := by
  have hnt := sortedAgg_noTab h
  have hrecs : recsOfRun (fmtRecs (sortedAgg l)) = sortedAgg l := recsOfRun_fmtRecs hnt
  refine ⟨⟨?_, ?_⟩, hrecs⟩
  · unfold tokensOfRun
    rw [hrecs, tokens_sortedAgg]
    exact sortDedup_strict _
  · rw [hrecs]

/-! ### popMin -/

theorem popMin_none {l : List Entry} : popMin l = none ↔ l = [] := by
  constructor
  · intro h
    cases l with
    | nil => rfl
    | cons e es =>
      unfold popMin at h
      cases hp : popMin es with
      | none => simp only [hp] at h; cases h
      | some p =>
        rcases p with ⟨m, r⟩
        simp only [hp] at h
        by_cases hle : sLE (eword e) (eword m)
        · rw [if_pos hle] at h; cases h
        · rw [if_neg hle] at h; cases h
  · rintro rfl; rfl

theorem popMin_perm {l : List Entry} {e : Entry} {es : List Entry}
    (h : popMin l = some (e, es)) : l.Perm (e :: es) := by
  induction l generalizing e es with
  | nil => cases h
  | cons x xs ih =>
    unfold popMin at h
    cases hp : popMin xs with
    | none =>
      simp only [hp] at h
      cases h
      exact List.Perm.refl _
    | some p =>
      rcases p with ⟨m, r⟩
      simp only [hp] at h
      by_cases hle : sLE (eword x) (eword m)
      · rw [if_pos hle] at h
        cases h
        exact List.Perm.refl _
      · rw [if_neg hle] at h
        cases h
        exact ((ih hp).cons x).trans (List.Perm.swap _ x _)

theorem popMin_min {l : List Entry} {e : Entry} {es : List Entry}
    (h : popMin l = some (e, es)) : ∀ x ∈ es, sLE (eword e) (eword x) := by
  induction l generalizing e es with
  | nil => cases h
  | cons a xs ih =>
    unfold popMin at h
    cases hp : popMin xs with
    | none =>
      simp only [hp] at h
      cases h
      have hx : xs = [] := popMin_none.mp hp
      subst hx
      intro x hx2
      cases hx2
    | some p =>
      rcases p with ⟨m, r⟩
      simp only [hp] at h
      by_cases hle : sLE (eword a) (eword m)
      · rw [if_pos hle] at h
        cases h
        intro x hx
        have hx2 : x ∈ m :: r := (popMin_perm hp).mem_iff.mp hx
        rcases List.mem_cons.mp hx2 with rfl | hx3
        · exact hle
        · exact sLE_trans hle (ih hp x hx3)
      · rw [if_neg hle] at h
        cases h
        intro x hx
        rcases List.mem_cons.mp hx with rfl | hx3
        · exact sLE_of_not_sLE hle
        · exact ih hp x hx3

/-! ### runAt / set / sumLen -/

theorem runAt_cons_succ (r : Run) (R : List Run) (j : Nat) :
    runAt (r :: R) (j + 1) = runAt R j := rfl

theorem runAt_cons_zero (r : Run) (R : List Run) : runAt (r :: R) 0 = r := rfl

theorem runAt_set_self {R : List Run} {i : Nat} (h : i < R.length) (ls : Run) :
    runAt (R.set i ls) i = ls := by
  induction R generalizing i with
  | nil => simp at h
  | cons r rs ih =>
    cases i with
    | zero => rfl
    | succ j => exact ih (by simpa using h)

theorem runAt_set_ne {R : List Run} {i j : Nat} (h : j ≠ i) (ls : Run) :
    runAt (R.set i ls) j = runAt R j := by
  induction R generalizing i j with
  | nil => rfl
  | cons r rs ih =>
    cases i with
    | zero =>
      cases j with
      | zero => exact absurd rfl h
      | succ k => rfl
    | succ i2 =>
      cases j with
      | zero => rfl
      | succ k => exact ih (fun hc => h (by rw [hc]))

theorem runAt_eq_getElem {R : List Run} {i : Nat} (h : i < R.length) :
    runAt R i = R[i] := by
  induction R generalizing i with
  | nil => simp at h
  | cons r rs ih =>
    cases i with
    | zero => rfl
    | succ j => exact ih (by simpa using h)

theorem sumLen_cons (r : Run) (R : List Run) :
    sumLen (r :: R) = r.length + sumLen R := by
  simp [sumLen]

theorem sumLen_set {R : List Run} {i : Nat} {l : String} {ls : Run}
    (h : runAt R i = l :: ls) (hi : i < R.length) :
    sumLen R = sumLen (R.set i ls) + 1 := by
  induction R generalizing i with
  | nil => simp at hi
  | cons r rs ih =>
    cases i with
    | zero =>
      have hr : r = l :: ls := h
      subst hr
      show sumLen ((l :: ls) :: rs) = sumLen (ls :: rs) + 1
      rw [sumLen_cons, sumLen_cons]
      simp
      omega
    | succ j =>
      have hstep := ih h (by simpa using hi)
      show sumLen (r :: rs) = sumLen (r :: rs.set j ls) + 1
      rw [sumLen_cons, sumLen_cons]
      omega

theorem allRecs_set_perm {R : List Run} {i : Nat} {l : String} {ls : Run}
    (h : runAt R i = l :: ls) (hi : i < R.length) :
    (allRecs R).Perm (parseLine l :: allRecs (R.set i ls)) := by
  induction R generalizing i with
  | nil => simp at hi
  | cons r rs ih =>
    cases i with
    | zero =>
      have hr : r = l :: ls := h
      subst hr
      exact List.Perm.refl _
    | succ j =>
      have hp := ih h (by simpa using hi)
      show (recsOfRun r ++ allRecs rs).Perm
        (parseLine l :: (recsOfRun r ++ allRecs (rs.set j ls)))
      exact (hp.append_left (recsOfRun r)).trans List.perm_middle

/-! ### Step lemmas for the merge loop -/

theorem mem_keysOf_incr_iff (t : Table) (w x : String) (c : Int) :
    x ∈ keysOf (incr t w c) ↔ x ∈ keysOf t ∨ x = w := by
  rw [keysOf_incr]
  by_cases hm : w ∈ keysOf t
  · rw [if_pos hm]
    constructor
    · exact Or.inl
    · rintro (h | rfl)
      · exact h
      · exact hm
  · rw [if_neg hm]
    simp [List.mem_append]

theorem bufInv_incr {T : Table} {es2 : List Entry} {w : String} {c : Int}
    (hnd : NodupKeys T)
    (hkeys : ∀ k ∈ keysOf T, ∀ x ∈ es2, sLE k (eword x))
    (hw : ∀ x ∈ es2, sLE w (eword x)) :
    BufInv (incr T w c) es2 := by
  refine ⟨nodupKeys_incr hnd w c, ?_⟩
  intro k hk x hx
  rcases (mem_keysOf_incr_iff T w k c).mp hk with h2 | rfl
  · exact hkeys k h2 x hx
  · exact hw x hx

theorem allRecs_tokens_gt {E : List Entry} {R : List Run} (hInv : MergeInv E R)
    {w : String} (hw : ∀ x ∈ E, sLE w (eword x)) :
    ∀ rec ∈ allRecs R, sLT w rec.1 := by
  intro rec hrec
  rcases List.mem_flatten.mp hrec with ⟨lr, hlr, hin⟩
  rcases List.mem_map.mp hlr with ⟨r, hrR, rfl⟩
  rcases List.mem_iff_getElem.mp hrR with ⟨j, hj, rfl⟩
  have hrun : runAt R j = R[j] := runAt_eq_getElem hj
  by_cases hE : ∃ x ∈ E, eidx x = j
  · rcases hE with ⟨x, hxE, hxj⟩
    obtain ⟨_, _, hgt⟩ := hInv.2.1 x hxE
    have hmem : rec.1 ∈ tokensOfRun (runAt R (eidx x)) := by
      rw [hxj, hrun]
      exact List.mem_map_of_mem Prod.fst hin
    exact sLT_of_sLE_of_sLT (hw x hxE) (hgt rec.1 hmem)
  · have hnil : runAt R j = [] :=
      hInv.2.2 j hj (fun x hx hc => hE ⟨x, hx, hc⟩)
    rw [hrun] at hnil
    rw [hnil] at hin
    cases hin

theorem mergeInv_next_nopush {E : List Entry} {R : List Run} (hInv : MergeInv E R)
    {w : String} {c : Int} {i : Nat} {es : List Entry}
    (hpop : popMin E = some ((w, c, i), es)) (hrun : runAt R i = []) :
    MergeInv es R := by
  have hperm := popMin_perm hpop
  have hidxperm : (E.map eidx).Perm (eidx (w, c, i) :: es.map eidx) := hperm.map eidx
  have hnodup : (eidx (w, c, i) :: es.map eidx).Nodup := hidxperm.nodup_iff.mp hInv.1
  refine ⟨(List.nodup_cons.mp hnodup).2, ?_, ?_⟩
  · intro e he
    exact hInv.2.1 e (hperm.mem_iff.mpr (List.mem_cons_of_mem _ he))
  · intro j hj hje
    by_cases hij : j = i
    · rw [hij]
      exact hrun
    · apply hInv.2.2 j hj
      intro e he
      rcases List.mem_cons.mp (hperm.mem_iff.mp he) with rfl | h2
      · show i ≠ j
        exact fun hc => hij hc.symm
      · exact hje e h2

theorem mergeInv_next_push {E : List Entry} {R : List Run} (hInv : MergeInv E R)
    {w : String} {c : Int} {i : Nat} {es : List Entry} {l : String} {ls : Run}
    (hpop : popMin E = some ((w, c, i), es)) (hrun : runAt R i = l :: ls) :
    MergeInv (es ++ [((parseLine l).1, (parseLine l).2, i)]) (R.set i ls) := by
  have hperm := popMin_perm hpop
  have hmemE : (w, c, i) ∈ E := hperm.mem_iff.mpr (by simp)
  obtain ⟨hiR, hs_i, hgt_i⟩ := hInv.2.1 (w, c, i) hmemE
  have hidxperm : (E.map eidx).Perm (eidx (w, c, i) :: es.map eidx) := hperm.map eidx
  have hnodup : (eidx (w, c, i) :: es.map eidx).Nodup := hidxperm.nodup_iff.mp hInv.1
  have hnotin : i ∉ es.map eidx := (List.nodup_cons.mp hnodup).1
  have hnodup_es : (es.map eidx).Nodup := (List.nodup_cons.mp hnodup).2
  have htok : tokensOfRun (runAt R (eidx (w, c, i))) =
      (parseLine l).1 :: tokensOfRun ls := by
    show tokensOfRun (runAt R i) = _
    rw [hrun]
    rfl
  rw [htok] at hs_i hgt_i
  have hpcs := List.pairwise_cons.mp hs_i
  refine ⟨?_, ?_, ?_⟩
  · rw [List.map_append]
    rw [List.nodup_append]
    refine ⟨hnodup_es, by simp, ?_⟩
    intro a ha hb
    have hb2 : a = i := by simpa [eidx] using hb
    subst hb2
    exact hnotin ha
  · intro e he
    rcases List.mem_append.mp he with he2 | he2
    · have heE : e ∈ E := hperm.mem_iff.mpr (List.mem_cons_of_mem _ he2)
      obtain ⟨h1, h2, h3⟩ := hInv.2.1 e heE
      have hne : eidx e ≠ i := fun hc => hnotin (hc ▸ List.mem_map_of_mem eidx he2)
      rw [List.length_set, runAt_set_ne hne]
      exact ⟨h1, h2, h3⟩
    · have he3 : e = ((parseLine l).1, (parseLine l).2, i) := by simpa using he2
      subst he3
      have hiR2 : i < R.length := hiR
      refine ⟨by rw [List.length_set]; exact hiR2, ?_, ?_⟩
      · show StrictSorted (tokensOfRun (runAt (R.set i ls) i))
        rw [runAt_set_self hiR2]
        exact hpcs.2
      · show ∀ x ∈ tokensOfRun (runAt (R.set i ls) i), sLT ((parseLine l).1) x
        rw [runAt_set_self hiR2]
        exact hpcs.1
  · intro j hj hje
    rw [List.length_set] at hj
    have hji : j ≠ i := by
      intro hc
      exact hje ((parseLine l).1, (parseLine l).2, i) (by simp) (by rw [hc]; rfl)
    rw [runAt_set_ne hji]
    apply hInv.2.2 j hj
    intro e he
    rcases List.mem_cons.mp (hperm.mem_iff.mp he) with rfl | h2
    · show i ≠ j
      exact fun hc => hji hc.symm
    · exact hje e (List.mem_append_left _ h2)

theorem fmtRecs_append (a b : List (String × Int)) :
    fmtRecs (a ++ b) = fmtRecs a ++ fmtRecs b :=
  List.map_append _ a b

theorem aggEquiv_step_nopush (T0 : Table) {E es : List Entry} {R : List Run}
    {w : String} {c : Int} {i : Nat}
    (hperm : E.Perm ((w, c, i) :: es)) :
    AggEquiv (T0 ++ E.map entryRec ++ allRecs R)
      (incr T0 w c ++ es.map entryRec ++ allRecs R) := by
  have hpE : (E.map entryRec).Perm ((w, c) :: es.map entryRec) := hperm.map entryRec
  constructor
  · intro x
    have h1 : x ∈ (incr T0 w c).map Prod.fst ↔ x ∈ T0.map Prod.fst ∨ x = w :=
      mem_keysOf_incr_iff T0 w x c
    have h2 : x ∈ (E.map entryRec).map Prod.fst ↔
        x = w ∨ x ∈ (es.map entryRec).map Prod.fst := by
      rw [(hpE.map Prod.fst).mem_iff]
      simp [List.mem_cons]
    simp only [List.map_append, List.mem_append]
    tauto
  · intro x
    rw [sumc_append, sumc_append, sumc_append, sumc_append,
      sumc_perm hpE x, sumc_cons, sumc_incr]
    have e1 : (if ((w, c) : String × Int).1 = x then ((w, c) : String × Int).2 else 0)
        = (if w = x then c else 0) := rfl
    rw [e1]
    ring

set_option maxHeartbeats 1000000 in
theorem aggEquiv_step_push (T0 : Table) {E es : List Entry} {R : List Run}
    {w l : String} {c : Int} {i : Nat} {ls : Run}
    (hperm : E.Perm ((w, c, i) :: es))
    (hrun : runAt R i = l :: ls) (hiR : i < R.length) :
    AggEquiv (T0 ++ E.map entryRec ++ allRecs R)
      (incr T0 w c ++ (es ++ [((parseLine l).1, (parseLine l).2, i)]).map entryRec
        ++ allRecs (R.set i ls)) := by
  have hpE : (E.map entryRec).Perm ((w, c) :: es.map entryRec) := hperm.map entryRec
  have hpR : (allRecs R).Perm (parseLine l :: allRecs (R.set i ls)) :=
    allRecs_set_perm hrun hiR
  have hmapnew : (es ++ [((parseLine l).1, (parseLine l).2, i)]).map entryRec =
      es.map entryRec ++ [parseLine l] := by
    rw [List.map_append]
    rfl
  rw [hmapnew]
  constructor
  · intro x
    have h1 : x ∈ (incr T0 w c).map Prod.fst ↔ x ∈ T0.map Prod.fst ∨ x = w :=
      mem_keysOf_incr_iff T0 w x c
    have h2 : x ∈ (E.map entryRec).map Prod.fst ↔
        x = w ∨ x ∈ (es.map entryRec).map Prod.fst := by
      rw [(hpE.map Prod.fst).mem_iff]
      simp [List.mem_cons]
    have h3 : x ∈ (allRecs R).map Prod.fst ↔
        x = (parseLine l).1 ∨ x ∈ (allRecs (R.set i ls)).map Prod.fst := by
      rw [(hpR.map Prod.fst).mem_iff]
      simp [List.mem_cons]
    have h4 : x ∈ ([parseLine l] : List (String × Int)).map Prod.fst ↔
        x = (parseLine l).1 := by
      simp
    simp only [List.map_append, List.mem_append]
    rw [h1, h2, h3, h4]
    tauto
  · intro x
    rw [sumc_append, sumc_append, sumc_append, sumc_append, sumc_append,
      sumc_perm hpE x, sumc_perm hpR x, sumc_cons, sumc_cons, sumc_cons, sumc_nil,
      sumc_incr]
    have e1 : (if ((w, c) : String × Int).1 = x then ((w, c) : String × Int).2 else 0)
        = (if w = x then c else 0) := rfl
    rw [e1]
    ring

/-- Functional characterisation of the merge loop: from any state satisfying
the invariants, the lines eventually written are exactly the canonical sorted
aggregate of everything still pending (buffer, heap, unread records). -/
theorem mergeLoopF_spec (B : Nat) :
    ∀ fuel (E : List Entry) (R : List Run) (T : Table) (O : List String),
      E.length + sumLen R + 1 ≤ fuel →
      MergeInv E R → BufInv T E →
      mergeLoopF B fuel E R T O =
        O ++ fmtRecs (sortedAgg (T ++ E.map entryRec ++ allRecs R)) := by
  intro fuel
  induction fuel with
  | zero =>
    intro E R T O hf hInv hBuf
    omega
  | succ f ih =>
    intro E R T O hf hInv hBuf
    cases hpop : popMin E with
    | none =>
      have hE : E = [] := popMin_none.mp hpop
      subst hE
      have hR : ∀ r ∈ R, r = [] := by
        intro r hr
        rcases List.mem_iff_getElem.mp hr with ⟨j, hj, rfl⟩
        rw [← runAt_eq_getElem hj]
        exact hInv.2.2 j hj (by intro e he; cases he)
      have hAllNil : allRecs R = [] := allRecs_eq_nil hR
      simp only [mergeLoopF, hpop]
      rw [hAllNil]
      simp only [List.map_nil, List.append_nil]
      by_cases hT : T = []
      · subst hT
        simp [sortedAgg, sortDedup, sumc, fmtRecs]
      · rw [if_neg (by simpa [List.isEmpty_iff] using hT), flushRun_eq_fmt hBuf.1]
    | some pr =>
      rcases pr with ⟨e, es⟩
      rcases e with ⟨w, c, i⟩
      have hperm := popMin_perm hpop
      have hmin := popMin_min hpop
      have hmemE : (w, c, i) ∈ E := hperm.mem_iff.mpr (by simp)
      have hwle : ∀ x ∈ E, sLE w (eword x) := by
        intro x hx
        rcases List.mem_cons.mp (hperm.mem_iff.mp hx) with rfl | h2
        · exact sLE_refl _
        · exact hmin x h2
      obtain ⟨hiR, hs_i, hgt_i⟩ := hInv.2.1 (w, c, i) hmemE
      have hiR2 : i < R.length := hiR
      have hlenE : E.length = es.length + 1 := by
        simpa using hperm.length_eq
      simp only [mergeLoopF, hpop, eword, eidx]
      by_cases hfl : ¬ w ∈ keysOf T ∧ B ≤ T.length
      · -- flush first
        rw [if_pos hfl]
        have hkw : ∀ k ∈ keysOf T, sLT k w := by
          intro k hk
          have h1 : sLE k w := hBuf.2 k hk (w, c, i) hmemE
          have h2 : k ≠ w := fun hc => hfl.1 (hc ▸ hk)
          exact sLT_of_sLE_of_ne h1 h2
        have hsplit : sortedAgg (T ++ E.map entryRec ++ allRecs R) =
            sortedAgg T ++ sortedAgg (E.map entryRec ++ allRecs R) := by
          rw [List.append_assoc]
          apply sortedAgg_append
          intro a ha b hb
          have ha2 : a ∈ keysOf T := ha
          rw [List.map_append, List.mem_append] at hb
          rcases hb with hb1 | hb1
          · rcases List.mem_map.mp hb1 with ⟨rec, hrec, rfl⟩
            rcases List.mem_map.mp hrec with ⟨x, hxE, rfl⟩
            exact sLT_of_sLT_of_sLE (hkw a ha2) (hwle x hxE)
          · rcases List.mem_map.mp hb1 with ⟨rec, hrec, rfl⟩
            exact sLT_trans (hkw a ha2) (allRecs_tokens_gt hInv hwle rec hrec)
        rw [hsplit, fmtRecs_append, ← flushRun_eq_fmt hBuf.1, ← List.append_assoc]
        cases hrunm : runAt R i with
        | nil =>
          have hIH := ih es R (incr ([] : Table) w c) (O ++ flushRun T)
            (by omega)
            (mergeInv_next_nopush hInv hpop hrunm)
            (bufInv_incr (by simp [NodupKeys, keysOf])
              (by intro k hk; simp [keysOf] at hk)
              hmin)
          simp only [hrunm]
          rw [hIH]
          have hstep := sortedAgg_congr
            (aggEquiv_step_nopush ([] : Table) (R := R) hperm)
          rw [List.nil_append] at hstep
          rw [← hstep]
        | cons l ls =>
          have hmemtok : (parseLine l).1 ∈ tokensOfRun (runAt R (eidx (w, c, i))) := by
            show (parseLine l).1 ∈ tokensOfRun (runAt R i)
            rw [hrunm]
            simp [tokensOfRun, recsOfRun]
          have hwl : sLT w ((parseLine l).1) := hgt_i (parseLine l).1 hmemtok
          have hls := sumLen_set hrunm hiR2
          have hIH := ih (es ++ [((parseLine l).1, (parseLine l).2, i)]) (R.set i ls)
            (incr ([] : Table) w c) (O ++ flushRun T)
            (by simp only [List.length_append, List.length_singleton]; omega)
            (mergeInv_next_push hInv hpop hrunm)
            (bufInv_incr (by simp [NodupKeys, keysOf])
              (by intro k hk; simp [keysOf] at hk)
              (by
                intro x hx
                rcases List.mem_append.mp hx with h2 | h2
                · exact hmin x h2
                · have hx2 : x = ((parseLine l).1, (parseLine l).2, i) := by simpa using h2
                  subst hx2
                  exact sLE_of_sLT hwl))
          simp only [hrunm]
          rw [hIH]
          have hstep := sortedAgg_congr
            (aggEquiv_step_push ([] : Table) hperm hrunm hiR2)
          rw [List.nil_append] at hstep
          rw [← hstep]
      · -- keep the buffer
        rw [if_neg hfl]
        cases hrunm : runAt R i with
        | nil =>
          have hIH := ih es R (incr T w c) O
            (by omega)
            (mergeInv_next_nopush hInv hpop hrunm)
            (bufInv_incr hBuf.1
              (fun k hk x hx =>
                hBuf.2 k hk x (hperm.mem_iff.mpr (List.mem_cons_of_mem _ hx)))
              hmin)
          simp only [hrunm]
          rw [hIH]
          rw [← sortedAgg_congr (aggEquiv_step_nopush T (R := R) hperm)]
        | cons l ls =>
          have hmemtok : (parseLine l).1 ∈ tokensOfRun (runAt R (eidx (w, c, i))) := by
            show (parseLine l).1 ∈ tokensOfRun (runAt R i)
            rw [hrunm]
            simp [tokensOfRun, recsOfRun]
          have hwl : sLT w ((parseLine l).1) := hgt_i (parseLine l).1 hmemtok
          have hls := sumLen_set hrunm hiR2
          have hIH := ih (es ++ [((parseLine l).1, (parseLine l).2, i)]) (R.set i ls)
            (incr T w c) O
            (by simp only [List.length_append, List.length_singleton]; omega)
            (mergeInv_next_push hInv hpop hrunm)
            (bufInv_incr hBuf.1
              (by
                intro k hk x hx
                rcases List.mem_append.mp hx with h2 | h2
                · exact hBuf.2 k hk x (hperm.mem_iff.mpr (List.mem_cons_of_mem _ h2))
                · have hx2 : x = ((parseLine l).1, (parseLine l).2, i) := by simpa using h2
                  subst hx2
                  have hkw2 : sLE k w := hBuf.2 k hk (w, c, i) hmemE
                  exact sLE_trans hkw2 (sLE_of_sLT hwl))
              (by
                intro x hx
                rcases List.mem_append.mp hx with h2 | h2
                · exact hmin x h2
                · have hx2 : x = ((parseLine l).1, (parseLine l).2, i) := by simpa using h2
                  subst hx2
                  exact sLE_of_sLT hwl))
          simp only [hrunm]
          rw [hIH]
          rw [← sortedAgg_congr (aggEquiv_step_push T hperm hrunm hiR2)]

/-! ### Initial state of mergeBatch -/

theorem entriesInitGo_succ (rs : List Run) :
    ∀ i, entriesInitGo (i + 1) rs =
      (entriesInitGo i rs).map (fun e => (e.1, e.2.1, e.2.2 + 1)) := by
  induction rs with
  | nil => intro i; rfl
  | cons r rs ih =>
    intro i
    cases r with
    | nil => exact ih (i + 1)
    | cons l t =>
      show ((parseLine l).1, (parseLine l).2, i + 1) :: entriesInitGo (i + 1 + 1) rs =
        ((parseLine l).1, (parseLine l).2, i + 1) ::
          (entriesInitGo (i + 1) rs).map (fun e => (e.1, e.2.1, e.2.2 + 1))
      rw [ih (i + 1)]

theorem entriesInit_recs_perm (runs : List Run) :
    ((entriesInitGo 0 runs).map entryRec ++ allRecs (runs.map List.tail)).Perm
      (allRecs runs) := by
  induction runs with
  | nil => exact List.Perm.refl _
  | cons r rs ih =>
    cases r with
    | nil =>
      show ((entriesInitGo (0 + 1) rs).map entryRec ++
        (recsOfRun [] ++ allRecs (rs.map List.tail))).Perm
        (recsOfRun [] ++ allRecs rs)
      rw [entriesInitGo_succ rs 0]
      have hmm : (((entriesInitGo 0 rs).map (fun e => (e.1, e.2.1, e.2.2 + 1))).map entryRec)
          = (entriesInitGo 0 rs).map entryRec := by
        rw [List.map_map]
        rfl
      rw [hmm]
      show ((entriesInitGo 0 rs).map entryRec ++ allRecs (rs.map List.tail)).Perm
        (allRecs rs)
      exact ih
    | cons l t =>
      have hmm : (((entriesInitGo 0 rs).map (fun e => (e.1, e.2.1, e.2.2 + 1))).map entryRec)
          = (entriesInitGo 0 rs).map entryRec := by
        rw [List.map_map]
        rfl
      show List.Perm
        ((entryRec ((parseLine l).1, (parseLine l).2, 0) ::
          (entriesInitGo (0 + 1) rs).map entryRec) ++
          (recsOfRun t ++ allRecs (rs.map List.tail)))
        ((parseLine l :: recsOfRun t) ++ allRecs rs)
      rw [entriesInitGo_succ rs 0, hmm, List.cons_append]
      show List.Perm
        (parseLine l :: ((entriesInitGo 0 rs).map entryRec ++
          (recsOfRun t ++ allRecs (rs.map List.tail))))
        (parseLine l :: (recsOfRun t ++ allRecs rs))
      apply List.Perm.cons
      have s1 : List.Perm
          ((entriesInitGo 0 rs).map entryRec ++ (recsOfRun t ++ allRecs (rs.map List.tail)))
          (recsOfRun t ++ ((entriesInitGo 0 rs).map entryRec ++ allRecs (rs.map List.tail))) := by
        rw [← List.append_assoc, ← List.append_assoc]
        exact (List.perm_append_comm).append_right _
      exact s1.trans (ih.append_left _)

theorem entriesInit_len (runs : List Run) :
    ∀ i, (entriesInitGo i runs).length + sumLen (runs.map List.tail) ≤ sumLen runs := by
  induction runs with
  | nil =>
    intro i
    simp [sumLen, entriesInitGo]
  | cons r rs ih =>
    intro i
    cases r with
    | nil =>
      show (entriesInitGo (i + 1) rs).length +
        sumLen ([] :: rs.map List.tail) ≤ sumLen ([] :: rs)
      rw [sumLen_cons, sumLen_cons]
      have := ih (i + 1)
      simp only [List.length_nil]
      omega
    | cons l t =>
      show (((parseLine l).1, (parseLine l).2, i) :: entriesInitGo (i + 1) rs).length +
        sumLen (t :: rs.map List.tail) ≤ sumLen ((l :: t) :: rs)
      rw [sumLen_cons, sumLen_cons]
      have := ih (i + 1)
      simp only [List.length_cons]
      omega

theorem entriesInit_inv {runs : List Run}
    (h : ∀ r ∈ runs, StrictSorted (tokensOfRun r)) :
    MergeInv (entriesInitGo 0 runs) (runs.map List.tail) := by
  induction runs with
  | nil =>
    refine ⟨List.nodup_nil, ?_, ?_⟩
    · intro e he
      cases he
    · intro i hi
      simp at hi
  | cons r rs ih =>
    have hih := ih (fun x hx => h x (by simp [hx]))
    have hmapidx : ((entriesInitGo 0 rs).map (fun e => (e.1, e.2.1, e.2.2 + 1))).map eidx =
        ((entriesInitGo 0 rs).map eidx).map (fun n => n + 1) := by
      rw [List.map_map, List.map_map]
      rfl
    have hnodup_shift :
        (((entriesInitGo 0 rs).map (fun e => (e.1, e.2.1, e.2.2 + 1))).map eidx).Nodup := by
      rw [hmapidx]
      exact hih.1.map (fun a b hab => by omega)
    have hent_shift : ∀ e ∈ (entriesInitGo 0 rs).map (fun e => (e.1, e.2.1, e.2.2 + 1)),
        ∀ (x : Run), eidx e < (x :: rs.map List.tail).length ∧
          StrictSorted (tokensOfRun (runAt (x :: rs.map List.tail) (eidx e))) ∧
          ∀ t2 ∈ tokensOfRun (runAt (x :: rs.map List.tail) (eidx e)), sLT (eword e) t2 := by
      intro e he x
      rcases List.mem_map.mp he with ⟨e0, he0, rfl⟩
      obtain ⟨h1, h2, h3⟩ := hih.2.1 e0 he0
      refine ⟨?_, ?_, ?_⟩
      · show e0.2.2 + 1 < (rs.map List.tail).length + 1
        exact Nat.succ_lt_succ h1
      · show StrictSorted (tokensOfRun (runAt (x :: rs.map List.tail) (e0.2.2 + 1)))
        rw [runAt_cons_succ]
        exact h2
      · show ∀ t2 ∈ tokensOfRun (runAt (x :: rs.map List.tail) (e0.2.2 + 1)), sLT (e0.1) t2
        rw [runAt_cons_succ]
        exact h3
    have hinv3_shift : ∀ (x : Run) (j : Nat), j + 1 < (x :: rs.map List.tail).length →
        (∀ e ∈ (entriesInitGo 0 rs).map (fun e => (e.1, e.2.1, e.2.2 + 1)),
          eidx e ≠ j + 1) →
        runAt (x :: rs.map List.tail) (j + 1) = [] := by
      intro x j hj hnone
      rw [runAt_cons_succ]
      apply hih.2.2 j (by simpa using hj)
      intro e0 he0 hc
      apply hnone _ (List.mem_map_of_mem _ he0)
      show e0.2.2 + 1 = j + 1
      have hc2 : e0.2.2 = j := hc
      omega
    cases r with
    | nil =>
      show MergeInv (entriesInitGo 1 rs) ([] :: rs.map List.tail)
      rw [entriesInitGo_succ rs 0]
      refine ⟨hnodup_shift, ?_, ?_⟩
      · intro e he
        exact hent_shift e he []
      · intro i hi hnone
        cases i with
        | zero => rfl
        | succ j => exact hinv3_shift [] j hi hnone
    | cons l t =>
      show MergeInv (((parseLine l).1, (parseLine l).2, 0) :: entriesInitGo 1 rs)
        (t :: rs.map List.tail)
      rw [entriesInitGo_succ rs 0]
      have hr0 := h (l :: t) (by simp)
      have htok : tokensOfRun (l :: t) = (parseLine l).1 :: tokensOfRun t := rfl
      rw [htok] at hr0
      have hpcs := List.pairwise_cons.mp hr0
      refine ⟨?_, ?_, ?_⟩
      · rw [List.map_cons, List.nodup_cons]
        constructor
        · rw [hmapidx]
          intro hmem
          rcases List.mem_map.mp hmem with ⟨n, _, hn⟩
          have h0 : n + 1 = 0 := hn
          omega
        · exact hnodup_shift
      · intro e he
        rcases List.mem_cons.mp he with rfl | he2
        · refine ⟨Nat.succ_pos _, ?_, ?_⟩
          · show StrictSorted (tokensOfRun (runAt (t :: rs.map List.tail) 0))
            rw [runAt_cons_zero]
            exact hpcs.2
          · show ∀ t2 ∈ tokensOfRun (runAt (t :: rs.map List.tail) 0),
              sLT ((parseLine l).1) t2
            rw [runAt_cons_zero]
            exact hpcs.1
        · exact hent_shift e he2 t
      · intro i hi hnone
        cases i with
        | zero =>
          exact absurd rfl (hnone (((parseLine l).1, (parseLine l).2, 0)) (by simp))
        | succ j =>
          exact hinv3_shift t j hi (fun e he => hnone e (List.mem_cons_of_mem _ he))

/-- mergeBatch writes exactly the canonical sorted aggregate of the records
of its input runs, provided each input run's parsed tokens are strictly
ascending. -/
theorem mergeBatch_spec (B : Nat) (runs : List Run)
    (h : ∀ r ∈ runs, StrictSorted (tokensOfRun r)) :
    mergeBatch B runs = fmtRecs (sortedAgg (allRecs runs)) := by
  unfold mergeBatch
  rw [mergeLoopF_spec B (sumLen runs + 1) _ _ [] []
    (by have := entriesInit_len runs 0; omega)
    (entriesInit_inv h)
    ⟨by simp [NodupKeys, keysOf], by intro k hk; simp [keysOf] at hk⟩]
  rw [List.nil_append, List.nil_append]
  congr 1
  exact sortedAgg_congr (aggEquiv_of_perm (entriesInit_recs_perm runs))

/-! ### Batch slicing -/

theorem chunksGo_nil (B fuel : Nat) : chunksGo B fuel ([] : List Run) = [] := by
  cases fuel <;> simp [chunksGo]

theorem chunksGo_flatten (B : Nat) (hB : 1 ≤ B) :
    ∀ fuel (l : List Run), l.length ≤ fuel → (chunksGo B fuel l).flatten = l := by
  intro fuel
  induction fuel with
  | zero =>
    intro l hf
    have hl : l = [] := by
      cases l with
      | nil => rfl
      | cons a t => simp at hf
    subst hl
    simp [chunksGo_nil]
  | succ f ih =>
    intro l hf
    unfold chunksGo
    by_cases hl : l.isEmpty
    · rw [if_pos hl]
      exact (List.isEmpty_iff.mp hl).symm
    · rw [if_neg hl, if_neg (by omega)]
      show (l.take B :: chunksGo B f (l.drop B)).flatten = l
      rw [List.flatten_cons]
      have hlne : l ≠ [] := by simpa [List.isEmpty_iff] using hl
      have hlpos : 0 < l.length := List.length_pos.mpr hlne
      have hd : (l.drop B).length = l.length - B := List.length_drop _ _
      rw [ih (l.drop B) (by omega)]
      exact List.take_append_drop B l

theorem chunksGo_ne_nil {B fuel : Nat} {l : List Run} (hl : l ≠ []) :
    chunksGo B fuel l ≠ [] := by
  cases fuel with
  | zero =>
    unfold chunksGo
    rw [if_neg (by simpa [List.isEmpty_iff] using hl)]
    simp
  | succ f =>
    unfold chunksGo
    rw [if_neg (by simpa [List.isEmpty_iff] using hl)]
    by_cases hB : B = 0
    · rw [if_pos hB]
      simp
    · rw [if_neg hB]
      simp

theorem chunksGo_length_le (B : Nat) (hB : 1 ≤ B) :
    ∀ fuel (l : List Run), l.length ≤ fuel → (chunksGo B fuel l).length ≤ l.length := by
  intro fuel
  induction fuel with
  | zero =>
    intro l hf
    have hl : l = [] := by
      cases l with
      | nil => rfl
      | cons a t => simp at hf
    subst hl
    simp [chunksGo_nil]
  | succ f ih =>
    intro l hf
    unfold chunksGo
    by_cases hl : l.isEmpty
    · rw [if_pos hl]
      simp
    · rw [if_neg hl, if_neg (by omega)]
      have hlne : l ≠ [] := by simpa [List.isEmpty_iff] using hl
      have hlpos : 0 < l.length := List.length_pos.mpr hlne
      show (l.take B :: chunksGo B f (l.drop B)).length ≤ l.length
      rw [List.length_cons]
      have hd : (l.drop B).length = l.length - B := List.length_drop _ _
      have hrec := ih (l.drop B) (by omega)
      omega

theorem chunksGo_length_lt (B : Nat) (hB : 2 ≤ B) :
    ∀ fuel (l : List Run), l.length ≤ fuel → 2 ≤ l.length →
      (chunksGo B fuel l).length < l.length := by
  intro fuel
  induction fuel with
  | zero =>
    intro l hf h2
    omega
  | succ f ih =>
    intro l hf h2
    unfold chunksGo
    rw [if_neg (by
      intro hc
      rw [List.isEmpty_iff] at hc
      subst hc
      simp at h2), if_neg (by omega)]
    show (l.take B :: chunksGo B f (l.drop B)).length < l.length
    rw [List.length_cons]
    have hd : (l.drop B).length = l.length - B := List.length_drop _ _
    by_cases hsmall : l.length ≤ B
    · have hdrop : l.drop B = [] := by
        apply List.eq_nil_of_length_eq_zero
        omega
      rw [hdrop, chunksGo_nil]
      simp
      omega
    · by_cases h2d : 2 ≤ (l.drop B).length
      · have hrec := ih (l.drop B) (by omega) h2d
        omega
      · have hrec := chunksGo_length_le B (by omega) f (l.drop B) (by omega)
        omega

theorem chunksGo_mem {B fuel : Nat} {l : List Run} {c : List Run} {r : Run}
    (hc : c ∈ chunksGo B fuel l) (hr : r ∈ c) : r ∈ l := by
  induction fuel generalizing l with
  | zero =>
    unfold chunksGo at hc
    by_cases hl : l.isEmpty
    · rw [if_pos hl] at hc
      cases hc
    · rw [if_neg hl] at hc
      have hcl : c = l := by simpa using hc
      subst hcl
      exact hr
  | succ f ih =>
    unfold chunksGo at hc
    by_cases hl : l.isEmpty
    · rw [if_pos hl] at hc
      cases hc
    · rw [if_neg hl] at hc
      by_cases hB : B = 0
      · rw [if_pos hB] at hc
        have hcl : c = l := by simpa using hc
        subst hcl
        exact hr
      · rw [if_neg hB] at hc
        rcases List.mem_cons.mp hc with rfl | hc2
        · exact List.take_subset _ _ hr
        · exact List.drop_subset _ _ (ih hc2)

/-! ### One merge round -/

theorem allRecs_append (a b : List Run) : allRecs (a ++ b) = allRecs a ++ allRecs b := by
  unfold allRecs
  rw [List.map_append, List.flatten_append]

theorem allRecs_chunks_equiv (B : Nat) (cl : List (List Run))
    (h : ∀ c ∈ cl, ∀ r ∈ c, WFRun r) :
    (∀ r ∈ cl.map (mergeBatch B), WFRun r) ∧
      AggEquiv (allRecs (cl.map (mergeBatch B))) (allRecs cl.flatten) := by
  induction cl with
  | nil => exact ⟨fun r hr => absurd hr (List.not_mem_nil r), aggEquiv_refl []⟩
  | cons c cl ih =>
    have hihc := ih (fun x hx => h x (by simp [hx]))
    have hcw : ∀ r ∈ c, WFRun r := h c (by simp)
    have hbatch : mergeBatch B c = fmtRecs (sortedAgg (allRecs c)) :=
      mergeBatch_spec B c (fun r hr => (hcw r hr).1)
    have hfmt := wfRun_fmt_sortedAgg (allRecs_noTab c)
    constructor
    · intro r hr
      rcases List.mem_cons.mp hr with rfl | hr2
      · rw [hbatch]
        exact hfmt.1
      · exact hihc.1 r hr2
    · show AggEquiv (allRecs (mergeBatch B c :: cl.map (mergeBatch B)))
        (allRecs (c ++ cl.flatten))
      rw [allRecs_cons, allRecs_append, hbatch, hfmt.2]
      exact aggEquiv_append (aggEquiv_sortedAgg _) hihc.2

theorem roundMerge_spec {B : Nat} (hB : 1 ≤ B) {files : List Run}
    (h : ∀ r ∈ files, WFRun r) :
    (∀ r ∈ roundMerge B files, WFRun r) ∧
      AggEquiv (allRecs (roundMerge B files)) (allRecs files) := by
  unfold roundMerge chunksOf
  have hmem : ∀ c ∈ chunksGo B files.length files, ∀ r ∈ c, WFRun r :=
    fun c hc r hr => h r (chunksGo_mem hc hr)
  have hmain := allRecs_chunks_equiv B (chunksGo B files.length files) hmem
  refine ⟨hmain.1, ?_⟩
  have hflat : (chunksGo B files.length files).flatten = files :=
    chunksGo_flatten B hB files.length files (le_refl _)
  rw [hflat] at hmain
  exact hmain.2

theorem roundMerge_length_lt {B : Nat} (hB : 2 ≤ B) {files : List Run}
    (h2 : 2 ≤ files.length) : (roundMerge B files).length < files.length := by
  unfold roundMerge chunksOf
  rw [List.length_map]
  exact chunksGo_length_lt B hB files.length files (le_refl _) h2

theorem roundMerge_ne_nil {B : Nat} {files : List Run} (h : files ≠ []) :
    roundMerge B files ≠ [] := by
  unfold roundMerge chunksOf
  intro hc
  rw [List.map_eq_nil_iff] at hc
  exact chunksGo_ne_nil h hc

/-! ### The scheduler loop -/

theorem mergeRoundsF_spec {B : Nat} (hB : 2 ≤ B) :
    ∀ (n : Nat) (files : List Run) (fuel : Nat), files.length ≤ fuel →
      files.length ≤ n → files ≠ [] → (∀ r ∈ files, WFRun r) →
      mergeRoundsF B fuel files = [fmtRecs (sortedAgg (allRecs files))] := by
  intro n
  induction n with
  | zero =>
    intro files fuel h1 h2 h3 h4
    cases files with
    | nil => exact absurd rfl h3
    | cons a t => simp at h2
  | succ n ih =>
    intro files fuel hfuel hn hne hwf
    cases fuel with
    | zero =>
      have : files = [] := by
        cases files with
        | nil => rfl
        | cons a t => simp at hfuel
      exact absurd this hne
    | succ f =>
      unfold mergeRoundsF
      by_cases h1 : files.length ≤ 1
      · rw [if_pos h1]
        rcases files with _ | ⟨r, rest⟩
        · exact absurd rfl hne
        · have hrest : rest = [] := by
            simp only [List.length_cons] at h1
            exact List.eq_nil_of_length_eq_zero (by omega)
          subst hrest
          have hwfr := hwf r (by simp)
          have hcanon : sortedAgg (recsOfRun r) = recsOfRun r := wfRun_canonical hwfr
          have hall : allRecs [r] = recsOfRun r := by
            rw [allRecs_cons, allRecs_nil, List.append_nil]
          rw [hall, hcanon, hwfr.2]
      · rw [if_neg h1]
        have h2 : 2 ≤ files.length := by omega
        have hround := roundMerge_spec (B := B) (by omega) hwf
        have hlt := roundMerge_length_lt hB h2
        have hIH := ih (roundMerge B files) f (by omega) (by omega)
          (roundMerge_ne_nil hne) hround.1
        rw [hIH, sortedAgg_congr hround.2]

theorem mergeRoundsF_terminates {B : Nat} (hB : 2 ≤ B) :
    ∀ (n : Nat) (files : List Run) (fuel : Nat), files.length ≤ fuel →
      files.length ≤ n → files ≠ [] →
      (mergeRoundsF B fuel files).length = 1 := by
  intro n
  induction n with
  | zero =>
    intro files fuel h1 h2 h3
    cases files with
    | nil => exact absurd rfl h3
    | cons a t => simp at h2
  | succ n ih =>
    intro files fuel hfuel hn hne
    cases fuel with
    | zero =>
      have : files = [] := by
        cases files with
        | nil => rfl
        | cons a t => simp at hfuel
      exact absurd this hne
    | succ f =>
      unfold mergeRoundsF
      by_cases h1 : files.length ≤ 1
      · rw [if_pos h1]
        have : 0 < files.length := List.length_pos.mpr hne
        omega
      · rw [if_neg h1]
        have h2 : 2 ≤ files.length := by omega
        have hlt := roundMerge_length_lt hB h2
        exact ih (roundMerge B files) f (by omega) (by omega) (roundMerge_ne_nil hne)

theorem mergeInBatches_spec {B : Nat} (hB : 2 ≤ B) {files : List Run}
    (hne : files ≠ []) (hwf : ∀ r ∈ files, WFRun r) :
    mergeInBatches B files = some (fmtRecs (sortedAgg (allRecs files))) := by
  unfold mergeInBatches
  rw [mergeRoundsF_spec hB files.length files files.length (le_refl _) (le_refl _) hne hwf]
  rfl

/-! ### Run building (processInputFile) -/

theorem tokensOfInput_nil : tokensOfInput [] = [] := rfl

theorem tokensOfInput_cons (l : String) (ls : List String) :
    tokensOfInput (l :: ls) =
      if trimSpace l = "" then tokensOfInput ls
      else trimSpace l :: tokensOfInput ls := by
  unfold tokensOfInput
  rw [List.map_cons, List.filter_cons]
  by_cases h : trimSpace l = ""
  · simp [h]
  · simp [h]

theorem aggEquiv_insert_step (A : List (String × Int)) (T : Table) (w : String)
    (c : Int) (X : List (String × Int)) {Y : List (String × Int)}
    (hY : AggEquiv Y (incr T w c)) :
    AggEquiv ((A ++ Y) ++ X) ((A ++ T) ++ ((w, c) :: X)) := by
  constructor
  · intro x
    have h1 : x ∈ Y.map Prod.fst ↔ x ∈ T.map Prod.fst ∨ x = w := by
      rw [hY.1 x]
      exact mem_keysOf_incr_iff T w x c
    simp only [List.map_append, List.mem_append, List.map_cons, List.mem_cons]
    rw [h1]
    tauto
  · intro x
    rw [sumc_append, sumc_append, sumc_append, sumc_append, sumc_cons, hY.2 x, sumc_incr]
    have e1 : (if ((w, c) : String × Int).1 = x then ((w, c) : String × Int).2 else 0)
        = (if w = x then c else 0) := rfl
    rw [e1]
    ring

theorem aggEquiv_incr (T : Table) (w : String) (c : Int) (Z : List (String × Int)) :
    AggEquiv (incr T w c ++ Z) (T ++ (w, c) :: Z) := by
  constructor
  · intro x
    have h1 : x ∈ (incr T w c).map Prod.fst ↔ x ∈ T.map Prod.fst ∨ x = w :=
      mem_keysOf_incr_iff T w x c
    simp only [List.map_append, List.mem_append, List.map_cons, List.mem_cons]
    rw [h1]
    tauto
  · intro x
    rw [sumc_append, sumc_append, sumc_cons, sumc_incr]
    have e1 : (if ((w, c) : String × Int).1 = x then ((w, c) : String × Int).2 else 0)
        = (if w = x then c else 0) := rfl
    rw [e1]
    ring

theorem buildFold_spec (B : Nat) :
    ∀ (lines : List String) (T : Table) (runs : List Run),
      NodupKeys T → (∀ k ∈ keysOf T, noTab k = true) →
      (∀ l ∈ lines, noTab (trimSpace l) = true) →
      (∀ r ∈ runs, WFRun r) →
      NodupKeys (lines.foldl (buildStep B) (T, runs)).1 ∧
      (∀ k ∈ keysOf (lines.foldl (buildStep B) (T, runs)).1, noTab k = true) ∧
      (∀ r ∈ (lines.foldl (buildStep B) (T, runs)).2, WFRun r) ∧
      AggEquiv (allRecs (lines.foldl (buildStep B) (T, runs)).2 ++
          (lines.foldl (buildStep B) (T, runs)).1)
        ((allRecs runs ++ T) ++ unitRecs (tokensOfInput lines)) := by
  intro lines
  induction lines with
  | nil =>
    intro T runs h1 h2 h3 h4
    refine ⟨h1, h2, h4, ?_⟩
    rw [tokensOfInput_nil]
    show AggEquiv (allRecs runs ++ T) ((allRecs runs ++ T) ++ [])
    rw [List.append_nil]
    exact aggEquiv_refl _
  | cons line rest ih =>
    intro T runs h1 h2 h3 h4
    rw [List.foldl_cons, tokensOfInput_cons]
    have hstep : buildStep B (T, runs) line =
        if trimSpace line = "" then (T, runs)
        else if B ≤ (incr T (trimSpace line) 1).length
          then ([], runs ++ [flushRun (incr T (trimSpace line) 1)])
          else (incr T (trimSpace line) 1, runs) := rfl
    by_cases hblank : trimSpace line = ""
    · rw [if_pos hblank, hstep, if_pos hblank]
      exact ih T runs h1 h2 (fun x hx => h3 x (by simp [hx])) h4
    · rw [if_neg hblank, hstep, if_neg hblank]
      have hwt : noTab (trimSpace line) = true := h3 line (by simp)
      have hnd : NodupKeys (incr T (trimSpace line) 1) := nodupKeys_incr h1 _ 1
      have hkeysnt : ∀ k ∈ keysOf (incr T (trimSpace line) 1), noTab k = true := by
        intro k hk
        rcases (mem_keysOf_incr_iff T (trimSpace line) k 1).mp hk with h5 | rfl
        · exact h2 k h5
        · exact hwt
      by_cases hfl : B ≤ (incr T (trimSpace line) 1).length
      · rw [if_pos hfl]
        have hrecsnt : ∀ rec ∈ (incr T (trimSpace line) 1 : Table),
            noTab rec.1 = true := by
          intro rec hrec
          exact hkeysnt rec.1 (List.mem_map_of_mem Prod.fst hrec)
        have hflushfmt : flushRun (incr T (trimSpace line) 1) =
            fmtRecs (sortedAgg (incr T (trimSpace line) 1)) := flushRun_eq_fmt hnd
        have hWF := wfRun_fmt_sortedAgg hrecsnt
        have hwfruns : ∀ r ∈ runs ++ [flushRun (incr T (trimSpace line) 1)], WFRun r := by
          intro r hr
          rcases List.mem_append.mp hr with h5 | h5
          · exact h4 r h5
          · have hr2 : r = flushRun (incr T (trimSpace line) 1) := by simpa using h5
            subst hr2
            rw [hflushfmt]
            exact hWF.1
        have hrec := ih [] (runs ++ [flushRun (incr T (trimSpace line) 1)])
          (by simp [NodupKeys, keysOf])
          (by intro k hk; simp [keysOf] at hk)
          (fun x hx => h3 x (by simp [hx])) hwfruns
        refine ⟨hrec.1, hrec.2.1, hrec.2.2.1, ?_⟩
        apply aggEquiv_trans hrec.2.2.2
        have hEq : allRecs (runs ++ [flushRun (incr T (trimSpace line) 1)]) =
            allRecs runs ++ recsOfRun (flushRun (incr T (trimSpace line) 1)) := by
          rw [allRecs_append, allRecs_cons, allRecs_nil, List.append_nil]
        have hrecs : recsOfRun (flushRun (incr T (trimSpace line) 1)) =
            sortedAgg (incr T (trimSpace line) 1) := by
          rw [hflushfmt]
          exact hWF.2
        rw [List.append_nil, hEq, hrecs]
        show AggEquiv
          ((allRecs runs ++ sortedAgg (incr T (trimSpace line) 1)) ++
            unitRecs (tokensOfInput rest))
          ((allRecs runs ++ T) ++
            ((trimSpace line, (1 : Int)) :: unitRecs (tokensOfInput rest)))
        exact aggEquiv_insert_step _ T _ 1 _ (aggEquiv_sortedAgg _)
      · rw [if_neg hfl]
        have hrec := ih (incr T (trimSpace line) 1) runs hnd hkeysnt
          (fun x hx => h3 x (by simp [hx])) h4
        refine ⟨hrec.1, hrec.2.1, hrec.2.2.1, ?_⟩
        apply aggEquiv_trans hrec.2.2.2
        show AggEquiv
          ((allRecs runs ++ incr T (trimSpace line) 1) ++ unitRecs (tokensOfInput rest))
          ((allRecs runs ++ T) ++
            ((trimSpace line, (1 : Int)) :: unitRecs (tokensOfInput rest)))
        exact aggEquiv_insert_step _ T _ 1 _ (aggEquiv_refl _)

theorem processInputFile_spec (B : Nat) (lines : List String)
    (hnt : ∀ l ∈ lines, noTab (trimSpace l) = true) :
    (∀ r ∈ processInputFile B lines, WFRun r) ∧
    AggEquiv (allRecs (processInputFile B lines)) (unitRecs (tokensOfInput lines)) ∧
    (tokensOfInput lines ≠ [] → processInputFile B lines ≠ []) := by
  have h := buildFold_spec B lines [] [] (by simp [NodupKeys, keysOf])
    (by intro k hk; simp [keysOf] at hk) hnt (fun r hr => absurd hr (List.not_mem_nil r))
  unfold processInputFile
  by_cases hT : (lines.foldl (buildStep B) ([], [])).1.isEmpty
  · rw [if_pos hT]
    have hTnil : (lines.foldl (buildStep B) ([], [])).1 = [] := List.isEmpty_iff.mp hT
    have hequiv : AggEquiv (allRecs (lines.foldl (buildStep B) ([], [])).2)
        (unitRecs (tokensOfInput lines)) := by
      have h5 := h.2.2.2
      rw [hTnil, List.append_nil] at h5
      simp only [allRecs_nil, List.nil_append] at h5
      exact h5
    refine ⟨h.2.2.1, hequiv, ?_⟩
    intro htok hres
    rcases List.exists_mem_of_ne_nil _ htok with ⟨w0, hw0⟩
    have hmem : w0 ∈ (unitRecs (tokensOfInput lines)).map Prod.fst := by
      unfold unitRecs
      rw [List.map_map]
      simpa using hw0
    have h6 := (hequiv.1 w0).mpr hmem
    rw [hres] at h6
    simp [allRecs_nil] at h6
  · rw [if_neg hT]
    have hrecsnt : ∀ rec ∈ (lines.foldl (buildStep B) ([], [])).1, noTab rec.1 = true := by
      intro rec hrec
      exact h.2.1 rec.1 (List.mem_map_of_mem Prod.fst hrec)
    have hflushfmt : flushRun (lines.foldl (buildStep B) ([], [])).1 =
        fmtRecs (sortedAgg (lines.foldl (buildStep B) ([], [])).1) := flushRun_eq_fmt h.1
    have hWF := wfRun_fmt_sortedAgg hrecsnt
    refine ⟨?_, ?_, fun _ => by simp⟩
    · intro r hr
      rcases List.mem_append.mp hr with h5 | h5
      · exact h.2.2.1 r h5
      · have hr2 : r = flushRun (lines.foldl (buildStep B) ([], [])).1 := by simpa using h5
        subst hr2
        rw [hflushfmt]
        exact hWF.1
    · have hEq : allRecs ((lines.foldl (buildStep B) ([], [])).2 ++
          [flushRun (lines.foldl (buildStep B) ([], [])).1]) =
          allRecs (lines.foldl (buildStep B) ([], [])).2 ++
            recsOfRun (flushRun (lines.foldl (buildStep B) ([], [])).1) := by
        rw [allRecs_append, allRecs_cons, allRecs_nil, List.append_nil]
      have hrecs : recsOfRun (flushRun (lines.foldl (buildStep B) ([], [])).1) =
          sortedAgg (lines.foldl (buildStep B) ([], [])).1 := by
        rw [hflushfmt]
        exact hWF.2
      rw [hEq, hrecs]
      apply aggEquiv_trans
        (aggEquiv_append (aggEquiv_refl (allRecs (lines.foldl (buildStep B) ([], [])).2))
          (aggEquiv_sortedAgg (lines.foldl (buildStep B) ([], [])).1))
      have h5 := h.2.2.2
      simp only [allRecs_nil, List.nil_append] at h5
      exact h5

theorem foldIncr_spec (ws : List String) :
    ∀ (T : Table), NodupKeys T →
      NodupKeys (ws.foldl (fun t w => incr t w 1) T) ∧
      AggEquiv (ws.foldl (fun t w => incr t w 1) T) (T ++ unitRecs ws) := by
  induction ws with
  | nil =>
    intro T h
    refine ⟨h, ?_⟩
    rw [show unitRecs [] = [] from rfl, List.append_nil]
    exact aggEquiv_refl _
  | cons w ws ih =>
    intro T h
    rw [List.foldl_cons]
    have hrec := ih (incr T w 1) (nodupKeys_incr h w 1)
    refine ⟨hrec.1, ?_⟩
    apply aggEquiv_trans hrec.2
    show AggEquiv (incr T w 1 ++ unitRecs ws) (T ++ ((w, (1 : Int)) :: unitRecs ws))
    exact aggEquiv_incr T w 1 (unitRecs ws)

theorem singlePassSpec_eq (lines : List String) :
    singlePassSpec lines = fmtRecs (sortedAgg (unitRecs (tokensOfInput lines))) := by
  unfold singlePassSpec
  have h := foldIncr_spec (tokensOfInput lines) [] (by simp [NodupKeys, keysOf])
  rw [flushRun_eq_fmt h.1]
  congr 1
  apply sortedAgg_congr
  apply aggEquiv_trans h.2
  rw [List.nil_append]
  exact aggEquiv_refl _

/-! ### The instrumented variants: projection and the memory bound -/

theorem buildStepI_proj (B : Nat) (T : Table) (runs : List Run) (peaks : List Nat)
    (line : String) :
    ((buildStepI B (T, runs, peaks) line).1, (buildStepI B (T, runs, peaks) line).2.1)
      = buildStep B (T, runs) line := by
  by_cases hblank : trimSpace line = ""
  · simp [buildStepI, buildStep, hblank]
  · by_cases hfl : B ≤ (incr T (trimSpace line) 1).length
    · simp [buildStepI, buildStep, hblank, hfl]
    · simp [buildStepI, buildStep, hblank, hfl]

theorem buildFoldI_proj (B : Nat) :
    ∀ (lines : List String) (T : Table) (runs : List Run) (peaks : List Nat),
      ((lines.foldl (buildStepI B) (T, runs, peaks)).1,
        (lines.foldl (buildStepI B) (T, runs, peaks)).2.1)
        = lines.foldl (buildStep B) (T, runs) := by
  intro lines
  induction lines with
  | nil => intro T runs peaks; rfl
  | cons line rest ih =>
    intro T runs peaks
    rw [List.foldl_cons, List.foldl_cons]
    have hproj := buildStepI_proj B T runs peaks line
    rcases hI : buildStepI B (T, runs, peaks) line with ⟨T2, runs2, peaks2⟩
    rw [hI] at hproj
    rw [← hproj]
    exact ih T2 runs2 peaks2

theorem buildFoldI_bound (B : Nat) (hB : 1 ≤ B) :
    ∀ (lines : List String) (T : Table) (runs : List Run) (peaks : List Nat),
      T.length < B → (∀ p ∈ peaks, p ≤ B) →
      (lines.foldl (buildStepI B) (T, runs, peaks)).1.length < B ∧
      ∀ p ∈ (lines.foldl (buildStepI B) (T, runs, peaks)).2.2, p ≤ B := by
  intro lines
  induction lines with
  | nil => intro T runs peaks hT hp; exact ⟨hT, hp⟩
  | cons line rest ih =>
    intro T runs peaks hT hp
    rw [List.foldl_cons]
    have hstep : buildStepI B (T, runs, peaks) line =
        if trimSpace line = "" then (T, runs, peaks)
        else if B ≤ (incr T (trimSpace line) 1).length
          then ([], runs ++ [flushRun (incr T (trimSpace line) 1)],
            peaks ++ [(incr T (trimSpace line) 1).length])
          else (incr T (trimSpace line) 1, runs,
            peaks ++ [(incr T (trimSpace line) 1).length]) := rfl
    have hlen : (incr T (trimSpace line) 1).length ≤ B := by
      have h1 := length_incr T (trimSpace line) 1
      by_cases hm : trimSpace line ∈ keysOf T
      · rw [if_pos hm] at h1
        omega
      · rw [if_neg hm] at h1
        omega
    have hpeaks2 : ∀ p ∈ peaks ++ [(incr T (trimSpace line) 1).length], p ≤ B := by
      intro p hpm
      rcases List.mem_append.mp hpm with h2 | h2
      · exact hp p h2
      · have hp2 : p = (incr T (trimSpace line) 1).length := by simpa using h2
        subst hp2
        exact hlen
    by_cases hblank : trimSpace line = ""
    · rw [hstep, if_pos hblank]
      exact ih T runs peaks hT hp
    · by_cases hfl : B ≤ (incr T (trimSpace line) 1).length
      · rw [hstep, if_neg hblank, if_pos hfl]
        exact ih _ _ _ (by simp only [List.length_nil]; omega) hpeaks2
      · rw [hstep, if_neg hblank, if_neg hfl]
        exact ih _ _ _ (by omega) hpeaks2

theorem mergeLoopFI_proj (B : Nat) :
    ∀ fuel (E : List Entry) (R : List Run) (T : Table) (O : List String) (P : List Nat),
      (mergeLoopFI B fuel E R T O P).1 = mergeLoopF B fuel E R T O := by
  intro fuel
  induction fuel with
  | zero => intro E R T O P; rfl
  | succ f ih =>
    intro E R T O P
    cases hpop : popMin E with
    | none => simp [mergeLoopFI, mergeLoopF, hpop]
    | some pr =>
      rcases pr with ⟨e, es⟩
      simp only [mergeLoopFI, mergeLoopF, hpop]
      cases hrun : runAt R (eidx e) with
      | nil =>
        simp only [hrun]
        exact ih _ _ _ _ _
      | cons l ls =>
        simp only [hrun]
        exact ih _ _ _ _ _

theorem mergeLoopFI_bound (B : Nat) (hB : 1 ≤ B) :
    ∀ fuel (E : List Entry) (R : List Run) (T : Table) (O : List String) (P : List Nat),
      T.length ≤ B → (∀ p ∈ P, p ≤ B) →
      ∀ p ∈ (mergeLoopFI B fuel E R T O P).2, p ≤ B := by
  intro fuel
  induction fuel with
  | zero => intro E R T O P hT hP; exact hP
  | succ f ih =>
    intro E R T O P hT hP
    cases hpop : popMin E with
    | none =>
      simp only [mergeLoopFI, hpop]
      exact hP
    | some pr =>
      rcases pr with ⟨e, es⟩
      simp only [mergeLoopFI, hpop]
      by_cases hfl : ¬ eword e ∈ keysOf T ∧ B ≤ T.length
      · rw [if_pos hfl]
        have hlen2 : (incr ([] : Table) (eword e) e.2.1).length ≤ B := by
          show ([(eword e, e.2.1)] : Table).length ≤ B
          simpa using hB
        have hP2 : ∀ p ∈ P ++ [(incr ([] : Table) (eword e) e.2.1).length], p ≤ B := by
          intro p hpm
          rcases List.mem_append.mp hpm with h2 | h2
          · exact hP p h2
          · have hp2 : p = (incr ([] : Table) (eword e) e.2.1).length := by simpa using h2
            subst hp2
            exact hlen2
        cases hrun : runAt R (eidx e) with
        | nil =>
          simp only [hrun]
          exact ih _ _ _ _ _ hlen2 hP2
        | cons l ls =>
          simp only [hrun]
          exact ih _ _ _ _ _ hlen2 hP2
      · rw [if_neg hfl]
        have hlen2 : (incr T (eword e) e.2.1).length ≤ B := by
          have h1 := length_incr T (eword e) e.2.1
          by_cases hm : eword e ∈ keysOf T
          · rw [if_pos hm] at h1
            omega
          · rw [if_neg hm] at h1
            push_neg at hfl
            have hlt : T.length < B := by
              rcases hfl hm with h3
              omega
            omega
        have hP2 : ∀ p ∈ P ++ [(incr T (eword e) e.2.1).length], p ≤ B := by
          intro p hpm
          rcases List.mem_append.mp hpm with h2 | h2
          · exact hP p h2
          · have hp2 : p = (incr T (eword e) e.2.1).length := by simpa using h2
            subst hp2
            exact hlen2
        cases hrun : runAt R (eidx e) with
        | nil =>
          simp only [hrun]
          exact ih _ _ _ _ _ hlen2 hP2
        | cons l ls =>
          simp only [hrun]
          exact ih _ _ _ _ _ hlen2 hP2

/-- The whole pipeline refines the unbounded single-pass count: for a tab-free
non-empty token stream and B at least 2 the final file is exactly the
single-pass table's output. -/
theorem pipeline_spec {B : Nat} {lines : List String} (hB : 2 ≤ B)
    (hnt : ∀ l ∈ lines, noTab (trimSpace l) = true)
    (htok : tokensOfInput lines ≠ []) :
    pipeline B lines = some (singlePassSpec lines) := by
  unfold pipeline
  have hp := processInputFile_spec B lines hnt
  rw [mergeInBatches_spec hB (hp.2.2 htok) hp.1, singlePassSpec_eq,
    sortedAgg_congr hp.2.1]

/-! ### Counting lemmas for the conservation claims -/

theorem sumc_filter_ne (l : List (String × Int)) (k x : String) (hx : x ≠ k) :
    sumc (l.filter (fun r => ¬ r.1 = k)) x = sumc l x := by
  induction l with
  | nil => rfl
  | cons r t ih =>
    simp only [decide_not] at ih
    by_cases hk : r.1 = k
    · have hrx : ¬ r.1 = x := by rw [hk]; exact fun hc => hx hc.symm
      simp [List.filter_cons, hk, sumc_cons, if_neg hrx, ih]
      intro hc
      exact absurd hc.symm hx
    · simp [List.filter_cons, hk, sumc_cons, ih]

theorem sum_snd_split (l : List (String × Int)) (k : String) :
    (l.map Prod.snd).sum =
      sumc l k + ((l.filter (fun r => ¬ r.1 = k)).map Prod.snd).sum := by
  induction l with
  | nil => rfl
  | cons r t ih =>
    simp only [decide_not] at ih
    by_cases hk : r.1 = k
    · simp [List.filter_cons, List.map_cons, List.sum_cons, hk, sumc_cons, ih]
      omega
    · simp [List.filter_cons, List.map_cons, List.sum_cons, hk, sumc_cons, ih]
      omega

theorem sum_sumc : ∀ (ks : List String), ks.Nodup → ∀ (l : List (String × Int)),
    (∀ r ∈ l, r.1 ∈ ks) →
    (ks.map (fun k => sumc l k)).sum = (l.map Prod.snd).sum := by
  intro ks
  induction ks with
  | nil =>
    intro _ l hcov
    have hl : l = [] := by
      cases l with
      | nil => rfl
      | cons r t => exact absurd (hcov r (by simp)) (List.not_mem_nil _)
    subst hl
    rfl
  | cons k ks ih =>
    intro hn l hcov
    simp only [List.nodup_cons] at hn
    rw [List.map_cons, List.sum_cons]
    have hmapeq : ks.map (fun x => sumc l x) =
        ks.map (fun x => sumc (l.filter (fun r => ¬ r.1 = k)) x) :=
      List.map_congr_left (fun x hx =>
        (sumc_filter_ne l k x (fun hc => hn.1 (hc ▸ hx))).symm)
    rw [hmapeq, ih hn.2 (l.filter (fun r => ¬ r.1 = k)) ?_, ← sum_snd_split]
    intro r hr
    rcases List.mem_filter.mp hr with ⟨hr1, hr2⟩
    rcases List.mem_cons.mp (hcov r hr1) with hc | hc
    · exact absurd hc (by simpa using hr2)
    · exact hc

theorem sum_snd_sortedAgg (l : List (String × Int)) :
    ((sortedAgg l).map Prod.snd).sum = (l.map Prod.snd).sum := by
  unfold sortedAgg
  rw [List.map_map]
  have hc : ((sortDedup (l.map Prod.fst)).map (Prod.snd ∘ fun w => (w, sumc l w))) =
      (sortDedup (l.map Prod.fst)).map (fun w => sumc l w) := rfl
  rw [hc]
  exact sum_sumc (sortDedup (l.map Prod.fst)) (sortDedup_strict _).nodup l
    (fun r hr => (mem_sortDedup _ _).mpr (List.mem_map_of_mem Prod.fst hr))

theorem sumc_unitRecs (ws : List String) (w : String) :
    sumc (unitRecs ws) w = (ws.count w : Int) := by
  induction ws with
  | nil => rfl
  | cons x ws ih =>
    rw [show unitRecs (x :: ws) = (x, (1 : Int)) :: unitRecs ws from rfl, sumc_cons, ih]
    by_cases hx : x = w
    · subst hx
      rw [if_pos rfl, List.count_cons]
      simp
      omega
    · rw [if_neg hx, List.count_cons]
      have hne : ¬ w = x := fun hc => hx hc.symm
      simp [hne, hx]

theorem sum_snd_unitRecs (ws : List String) :
    ((unitRecs ws).map Prod.snd).sum = (ws.length : Int) := by
  induction ws with
  | nil => rfl
  | cons x ws ih =>
    rw [show unitRecs (x :: ws) = (x, (1 : Int)) :: unitRecs ws from rfl,
      List.map_cons, List.sum_cons, ih, List.length_cons]
    omega

theorem tokensOfInput_noTab {lines : List String}
    (hnt : ∀ l ∈ lines, noTab (trimSpace l) = true) :
    ∀ w ∈ tokensOfInput lines, noTab w = true := by
  intro w hw
  unfold tokensOfInput at hw
  rcases List.mem_filter.mp hw with ⟨hw1, _⟩
  rcases List.mem_map.mp hw1 with ⟨l, hl, rfl⟩
  exact hnt l hl

theorem unitRecs_noTab {ws : List String} (h : ∀ w ∈ ws, noTab w = true) :
    ∀ rec ∈ unitRecs ws, noTab rec.1 = true := by
  intro rec hrec
  rcases List.mem_map.mp hrec with ⟨w, hw, rfl⟩
  exact h w hw

theorem sumc_eq_zero_of {l : List (String × Int)} {w : String}
    (h : ∀ rec ∈ l, rec.1 = w → rec.2 = 0) : sumc l w = 0 := by
  induction l with
  | nil => rfl
  | cons r t ih =>
    rw [sumc_cons, ih (fun x hx => h x (by simp [hx]))]
    by_cases hk : r.1 = w
    · rw [if_pos hk, h r (by simp) hk]
      rfl
    · rw [if_neg hk]
      rfl

theorem data_append_tab (a b : String) :
    (a ++ "\t" ++ b).data = a.data ++ '\t' :: b.data := by
  show ((a ++ "\t") ++ b).data = _
  rw [String.data_append, String.data_append]
  have ht : ("\t" : String).data = ['\t'] := rfl
  rw [ht, List.append_assoc]
  rfl
/-! ### The claims -/

/-- C1, counterexample to the unrestricted statement: on the input lines
["a\tb", "c", "d"] with B = 2 the program completes, yet the counts in the
final output sum to 2 while the input has 3 non-blank tokens, and the token
"a\tb" (1 occurrence) has output count 0: its flushed line a\tb\t1 re-parses
as token "a" with count 0. Conservation fails for tokens containing a tab. -/
theorem claim_C1_cex :
    pipeline 2 ["a\tb", "c", "d"] = some ["a\t0", "c\t1", "d\t1"] ∧
    ¬ (((recsOfRun ["a\t0", "c\t1", "d\t1"]).map Prod.snd).sum
        = ((tokensOfInput ["a\tb", "c", "d"]).length : Int)) ∧
    ¬ (sumc (recsOfRun ["a\t0", "c\t1", "d\t1"]) "a\tb"
        = ((tokensOfInput ["a\tb", "c", "d"]).count "a\tb" : Int)) := by
  refine ⟨by decide, by decide, by decide⟩

/-- C1, amended: for every input whose non-blank tokens are tab-free, every
B ≥ 2 and a nonempty token list, the pipeline completes and conservation
holds: the counts in the final output sum to the number of non-blank input
tokens, and every token is recorded with its exact occurrence count. -/
theorem claim_C1 (B : Nat) (lines : List String) (hB : 2 ≤ B)
    (hnt : ∀ l ∈ lines, noTab (trimSpace l) = true)
    (htok : tokensOfInput lines ≠ []) :
    ∃ out, pipeline B lines = some out ∧
      ((recsOfRun out).map Prod.snd).sum = ((tokensOfInput lines).length : Int) ∧
      ∀ w, sumc (recsOfRun out) w = ((tokensOfInput lines).count w : Int) := by
  have hrecs : recsOfRun (singlePassSpec lines) =
      sortedAgg (unitRecs (tokensOfInput lines)) := by
    rw [singlePassSpec_eq]
    exact recsOfRun_fmtRecs (sortedAgg_noTab (unitRecs_noTab (tokensOfInput_noTab hnt)))
  refine ⟨singlePassSpec lines, pipeline_spec hB hnt htok, ?_, ?_⟩
  · rw [hrecs, sum_snd_sortedAgg, sum_snd_unitRecs]
  · intro w
    rw [hrecs, sumc_sortedAgg, sumc_unitRecs]

/-- C1, witness: the amended conservation theorem applied at B = 2 and the
input ["a", "b", "a"]. -/
theorem claim_C1_witness :
    2 ≤ 2 ∧ (∀ l ∈ (["a", "b", "a"] : List String), noTab (trimSpace l) = true) ∧
    tokensOfInput ["a", "b", "a"] ≠ [] ∧
    ∃ out, pipeline 2 ["a", "b", "a"] = some out ∧
      ((recsOfRun out).map Prod.snd).sum
        = ((tokensOfInput ["a", "b", "a"]).length : Int) ∧
      ∀ w, sumc (recsOfRun out) w = ((tokensOfInput ["a", "b", "a"]).count w : Int) :=
  ⟨by decide, by decide, by decide,
    claim_C1 2 ["a", "b", "a"] (by decide) (by decide) (by decide)⟩

/-- C2, counterexample to the unrestricted statement: on the input lines
["m\u0001", "m\tq", "a"] with B = 2 the final output token column is
a, m\u0001, m, which is not strictly ascending: the flushed line for the
tab-containing token m\tq re-parses during the merge as token "m", which
sorts below m\u0001. -/
theorem claim_C2_cex :
    pipeline 2 ["m\u0001", "m\tq", "a"] = some ["a\t1", "m\u0001\t1", "m\t0"] ∧
    ¬ StrictSorted (tokensOfRun ["a\t1", "m\u0001\t1", "m\t0"]) := by
  refine ⟨by decide, by decide⟩

/-- C2, amended: every run written by the program has strictly ascending,
duplicate-free tokens at creation, as long as what it writes is read back
faithfully: leaf runs are flushes of a table with distinct keys; a merged
run has strictly ascending tokens whenever the input runs do (covering
multiple buffer flushes in one mergeBatch); and for tab-free input the
final output of the whole pipeline has strictly ascending tokens. -/
theorem claim_C2 (B : Nat) (T : Table) (mruns : List Run) (lines : List String)
    (hnd : NodupKeys T)
    (hms : ∀ r ∈ mruns, StrictSorted (tokensOfRun r))
    (hB : 2 ≤ B)
    (hnt : ∀ l ∈ lines, noTab (trimSpace l) = true)
    (htok : tokensOfInput lines ≠ []) :
    StrictSorted (sortStrings (keysOf T)) ∧
    StrictSorted (tokensOfRun (mergeBatch B mruns)) ∧
    ∃ out, pipeline B lines = some out ∧ StrictSorted (tokensOfRun out) := by
  refine ⟨sortStrings_strict hnd, ?_, ?_⟩
  · rw [mergeBatch_spec B mruns hms]
    show StrictSorted ((recsOfRun (fmtRecs (sortedAgg (allRecs mruns)))).map Prod.fst)
    rw [recsOfRun_fmtRecs (sortedAgg_noTab (allRecs_noTab mruns)), tokens_sortedAgg]
    exact sortDedup_strict _
  · refine ⟨singlePassSpec lines, pipeline_spec hB hnt htok, ?_⟩
    show StrictSorted ((recsOfRun (singlePassSpec lines)).map Prod.fst)
    rw [singlePassSpec_eq,
      recsOfRun_fmtRecs (sortedAgg_noTab (unitRecs_noTab (tokensOfInput_noTab hnt))),
      tokens_sortedAgg]
    exact sortDedup_strict _

/-- C2, witness: the amended sortedness theorem applied at B = 2, a concrete
two-key table, one sorted run, and the input ["a", "b"]. -/
theorem claim_C2_witness :
    NodupKeys [("b", (1 : Int)), ("a", 2)] ∧
    (∀ r ∈ ([["a\t1"]] : List Run), StrictSorted (tokensOfRun r)) ∧
    2 ≤ 2 ∧
    (∀ l ∈ (["a", "b"] : List String), noTab (trimSpace l) = true) ∧
    tokensOfInput ["a", "b"] ≠ [] ∧
    (StrictSorted (sortStrings (keysOf [("b", (1 : Int)), ("a", 2)])) ∧
     StrictSorted (tokensOfRun (mergeBatch 2 [["a\t1"]])) ∧
     ∃ out, pipeline 2 ["a", "b"] = some out ∧ StrictSorted (tokensOfRun out)) :=
  ⟨by decide, by decide, by decide, by decide, by decide,
    claim_C2 2 [("b", 1), ("a", 2)] [["a\t1"]] ["a", "b"]
      (by decide) (by decide) (by decide) (by decide) (by decide)⟩

/-- C3, counterexample to the unrestricted statement: B = 1 is a positive
integer the spec admits, yet with two runs a merge round leaves the run
count unchanged at 2, so the scheduler never reduces it below 2 and the
program loops forever (the embedding returns the fixed point unchanged;
the Go loop "for len(files) > 1" never exits). -/
theorem claim_C3_cex :
    (roundMerge 1 [["a\t1"], ["b\t1"]]).length = 2 ∧
    ¬ ((roundMerge 1 [["a\t1"], ["b\t1"]]).length
        < ([["a\t1"], ["b\t1"]] : List Run).length) := by
  refine ⟨by decide, by decide⟩

/-- C3, amended: for B ≥ 2 and any nonempty run list, each round with more
than one run strictly reduces the run count, and the merge scheduler
terminates with a final run. -/
theorem claim_C3 (B : Nat) (files : List Run) (hB : 2 ≤ B) (hne : files ≠ []) :
    (2 ≤ files.length → (roundMerge B files).length < files.length) ∧
    ∃ r, mergeInBatches B files = some r := by
  refine ⟨fun h2 => roundMerge_length_lt hB h2, ?_⟩
  have hterm := mergeRoundsF_terminates hB files.length files files.length
    (le_refl _) (le_refl _) hne
  rcases List.length_eq_one.mp hterm with ⟨r, hr⟩
  refine ⟨r, ?_⟩
  unfold mergeInBatches
  rw [hr]
  rfl

/-- C3, witness: the amended termination theorem applied at B = 2 and two
concrete runs. -/
theorem claim_C3_witness :
    2 ≤ 2 ∧ ([["a\t1"], ["b\t1"]] : List Run) ≠ [] ∧
    ((2 ≤ ([["a\t1"], ["b\t1"]] : List Run).length →
        (roundMerge 2 [["a\t1"], ["b\t1"]]).length
          < ([["a\t1"], ["b\t1"]] : List Run).length) ∧
     ∃ r, mergeInBatches 2 [["a\t1"], ["b\t1"]] = some r) :=
  ⟨by decide, by decide, claim_C3 2 [["a\t1"], ["b\t1"]] (by decide) (by decide)⟩

/-- C4: the claim is right about the intent and the code breaks it. On empty
input the run-building phase produces zero runs, but mergeInBatches then
evaluates files[0] on the empty run list: the embedding returns none, which
models the Go index-out-of-range panic, so the pipeline does not complete
with a defined empty result. -/
theorem claim_C4 (B : Nat) :
    processInputFile B [] = [] ∧
    mergeInBatches B ([] : List Run) = none ∧
    pipeline B [] = none :=
  ⟨rfl, rfl, rfl⟩

/-- C4, witness: the statement instantiated at the concrete bound B = 3. -/
theorem claim_C4_witness :
    processInputFile 3 [] = [] ∧
    mergeInBatches 3 ([] : List Run) = none ∧
    pipeline 3 [] = none :=
  claim_C4 3

/-- C5: for every positive B, every input and every batch of runs, the
instrumented builder and merger compute exactly what the plain ones do
while recording the size of every in-memory table at each point where the
code has just grown it, and every recorded size is at most B: neither the
builder table wordCount nor the merge buffer wordBuffer ever holds more
than B distinct tokens. -/
theorem claim_C5 (B : Nat) (lines : List String) (mruns : List Run)
    (hB : 1 ≤ B) :
    (((processInputFileI B lines).1, (processInputFileI B lines).2.1) =
        lines.foldl (buildStep B) ([], []) ∧
      ∀ p ∈ (processInputFileI B lines).2.2, p ≤ B) ∧
    ((mergeBatchI B mruns).1 = mergeBatch B mruns ∧
      ∀ p ∈ (mergeBatchI B mruns).2, p ≤ B) := by
  refine ⟨⟨buildFoldI_proj B lines [] [] [], ?_⟩,
    mergeLoopFI_proj B (sumLen mruns + 1) (entriesInitGo 0 mruns)
      (mruns.map List.tail) [] [] [], ?_⟩
  · exact (buildFoldI_bound B hB lines [] [] []
      (by simp only [List.length_nil]; omega)
      (fun p hp => absurd hp (List.not_mem_nil p))).2
  · exact mergeLoopFI_bound B hB (sumLen mruns + 1) (entriesInitGo 0 mruns)
      (mruns.map List.tail) [] [] [] (Nat.zero_le B)
      (fun p hp => absurd hp (List.not_mem_nil p))

/-- C5, witness: the memory-bound theorem applied at B = 2, the input
["a", "b", "c"] and one concrete run. -/
theorem claim_C5_witness :
    1 ≤ 2 ∧
    ((((processInputFileI 2 ["a", "b", "c"]).1,
        (processInputFileI 2 ["a", "b", "c"]).2.1) =
        (["a", "b", "c"] : List String).foldl (buildStep 2) ([], []) ∧
      ∀ p ∈ (processInputFileI 2 ["a", "b", "c"]).2.2, p ≤ 2) ∧
     ((mergeBatchI 2 [["a\t1"]]).1 = mergeBatch 2 [["a\t1"]] ∧
      ∀ p ∈ (mergeBatchI 2 [["a\t1"]]).2, p ≤ 2)) :=
  ⟨by decide, claim_C5 2 ["a", "b", "c"] [["a\t1"]] (by decide)⟩

/-- C6: merge-grouping independence. For tab-free input with at least one
token, the runs built with any builder bound Bb, merged with any two batch
bounds B1, B2 ≥ 2 (hence any grouping and round partitioning), give the
same final output, and that output is exactly the single-pass in-memory
frequency table of the whole input. -/
theorem claim_C6 (B1 B2 Bb : Nat) (lines : List String)
    (h1 : 2 ≤ B1) (h2 : 2 ≤ B2)
    (hnt : ∀ l ∈ lines, noTab (trimSpace l) = true)
    (htok : tokensOfInput lines ≠ []) :
    mergeInBatches B1 (processInputFile Bb lines) =
      mergeInBatches B2 (processInputFile Bb lines) ∧
    mergeInBatches B1 (processInputFile Bb lines) = some (singlePassSpec lines) := by
  have hp := processInputFile_spec Bb lines hnt
  have e1 := mergeInBatches_spec h1 (hp.2.2 htok) hp.1
  have e2 := mergeInBatches_spec h2 (hp.2.2 htok) hp.1
  have e3 : fmtRecs (sortedAgg (allRecs (processInputFile Bb lines)))
      = singlePassSpec lines := by
    rw [singlePassSpec_eq, sortedAgg_congr hp.2.1]
  rw [e1, e2, e3]
  exact ⟨rfl, rfl⟩

/-- C6, witness: grouping independence applied at B1 = 2, B2 = 3, builder
bound 1 and the input ["a", "b", "a"]. -/
theorem claim_C6_witness :
    2 ≤ 2 ∧ 2 ≤ 3 ∧
    (∀ l ∈ (["a", "b", "a"] : List String), noTab (trimSpace l) = true) ∧
    tokensOfInput ["a", "b", "a"] ≠ [] ∧
    (mergeInBatches 2 (processInputFile 1 ["a", "b", "a"]) =
        mergeInBatches 3 (processInputFile 1 ["a", "b", "a"]) ∧
     mergeInBatches 2 (processInputFile 1 ["a", "b", "a"]) =
        some (singlePassSpec ["a", "b", "a"])) :=
  ⟨by decide, by decide, by decide, by decide,
    claim_C6 2 3 1 ["a", "b", "a"] (by decide) (by decide) (by decide) (by decide)⟩

/-- C7: parseLine is fail-soft and total. A line with no tab (wrong field
count) yields the empty token with count 0; a line whose count field is not
numeric yields the token with count 0; no input aborts the merge. -/
theorem claim_C7 (line a b : String) (hline : noTab line = true)
    (ha : noTab a = true) (hb : atoiOpt b = none) :
    parseLine line = ("", 0) ∧ parseLine (a ++ "\t" ++ b) = (a, 0) := by
  refine ⟨parseLine_no_tab_line hline, ?_⟩
  unfold parseLine
  rw [data_append_tab, splitAtTab_append b.data (noTab_iff.mp ha)]
  show (a, atoi b) = (a, 0)
  unfold atoi
  rw [hb]
  rfl

/-- C7, witness: the fail-soft theorem applied to the tabless line "abc" and
the line with the non-numeric count field "x1". -/
theorem claim_C7_witness :
    noTab "abc" = true ∧ noTab "tok" = true ∧ atoiOpt "x1" = none ∧
    (parseLine "abc" = ("", 0) ∧ parseLine ("tok" ++ "\t" ++ "x1") = ("tok", 0)) :=
  ⟨by decide, by decide, by decide,
    claim_C7 "abc" "tok" "x1" (by decide) (by decide) (by decide)⟩

/-- C8: if run building produces exactly one run, the merge scheduler does
no merging and the final output is that run unchanged, for every B. -/
theorem claim_C8 (B : Nat) (r : Run) : mergeInBatches B [r] = some r := rfl

/-- C9, counterexample to the unrestricted statement: the token "a\tb"
formats to the line a\tb\t1, which parses back as ("a", 0), not
("a\tb", 1): the roundtrip fails for tokens containing a tab. -/
theorem claim_C9_cex :
    parseLine (formatLine "a\tb" 1) = ("a", 0) ∧
    ¬ (parseLine (formatLine "a\tb" 1) = ("a\tb", 1)) := by
  refine ⟨by decide, by decide⟩

/-- C9, amended: for every tab-free token and every non-negative count,
parsing the written line token, tab, decimal count returns exactly that
(token, count) pair. -/
theorem claim_C9 (w : String) (c : Int) (hw : noTab w = true) (_hc : 0 ≤ c) :
    parseLine (formatLine w c) = (w, c) :=
  parseLine_formatLine c hw

/-- C9, witness: the roundtrip applied to the token "tok" and count 57. -/
theorem claim_C9_witness :
    noTab "tok" = true ∧ 0 ≤ (57 : Int) ∧
    parseLine (formatLine "tok" 57) = ("tok", 57) :=
  ⟨by decide, by decide, claim_C9 "tok" 57 (by decide) (by decide)⟩

/-- C10, counterexample to the zero-count part: merging the single run
["x", "\t7"], whose line "x" has no tab, yields the single record ("", 7),
an empty-string token whose count is 7 rather than 0: well-formed lines
with an empty token, such as "\t7", merge into the same key, so the claim
holds only with the count corrected to the total for the empty key. -/
theorem claim_C10_cex :
    (∃ l ∈ (["x", "\t7"] : Run), noTab l = true) ∧
    recsOfRun (mergeBatch 2 [["x", "\t7"]]) = [("", 7)] ∧
    ¬ (("", (0 : Int)) ∈ recsOfRun (mergeBatch 2 [["x", "\t7"]])) := by
  refine ⟨by decide, by decide, by decide⟩

/-- C10, amended: if some input run of a mergeBatch over sorted runs has a
line with no tab, the merged output contains a record whose token is the
empty string, with count equal to the total contribution of the empty key;
in particular the count is 0 when every empty-token record contributes 0. -/
theorem claim_C10 (B : Nat) (mruns : List Run)
    (hs : ∀ r ∈ mruns, StrictSorted (tokensOfRun r))
    (hmal : ∃ r ∈ mruns, ∃ l ∈ r, noTab l = true) :
    ("", sumc (allRecs mruns) "") ∈ recsOfRun (mergeBatch B mruns) ∧
    ((∀ rec ∈ allRecs mruns, rec.1 = "" → rec.2 = 0) →
      ("", (0 : Int)) ∈ recsOfRun (mergeBatch B mruns)) := by
  have hmem0 : ("" : String) ∈ (allRecs mruns).map Prod.fst := by
    rcases hmal with ⟨r, hr, l, hl, hnt⟩
    have hrec : ("", (0 : Int)) ∈ recsOfRun r := by
      rw [← parseLine_no_tab_line hnt]
      exact List.mem_map_of_mem parseLine hl
    have hrec2 : ("", (0 : Int)) ∈ allRecs mruns := by
      unfold allRecs
      exact List.mem_flatten.mpr ⟨recsOfRun r, List.mem_map_of_mem recsOfRun hr, hrec⟩
    exact List.mem_map_of_mem Prod.fst hrec2
  have hkey : ("", sumc (allRecs mruns) "") ∈ recsOfRun (mergeBatch B mruns) := by
    rw [mergeBatch_spec B mruns hs,
      recsOfRun_fmtRecs (sortedAgg_noTab (allRecs_noTab mruns))]
    unfold sortedAgg
    exact List.mem_map.mpr
      ⟨"", (mem_sortDedup _ _).mpr hmem0, rfl⟩
  refine ⟨hkey, fun hz => ?_⟩
  have h0 : sumc (allRecs mruns) "" = 0 := sumc_eq_zero_of hz
  rw [← h0]
  exact hkey

/-- C10, witness: the empty-token record theorem applied at B = 1 to the
single run whose only line "x" has no tab. -/
theorem claim_C10_witness :
    (∀ r ∈ ([["x"]] : List Run), StrictSorted (tokensOfRun r)) ∧
    (∃ r ∈ ([["x"]] : List Run), ∃ l ∈ r, noTab l = true) ∧
    (("", sumc (allRecs [["x"]]) "") ∈ recsOfRun (mergeBatch 1 [["x"]]) ∧
     ((∀ rec ∈ allRecs [["x"]], rec.1 = "" → rec.2 = 0) →
       ("", (0 : Int)) ∈ recsOfRun (mergeBatch 1 [["x"]]))) :=
  ⟨by decide, by decide, claim_C10 1 [["x"]] (by decide) (by decide)⟩

end WordCounter
